import Mathlib

/-!
Verification of the substitution/reduction core and universe-level constraint
solver of the kernel (src/kernel/environment.cpp and the instantiation /
beta-reduction code).  The C++ data structures are shallowly embedded:
machine integers become `Nat`/`Int` with the explicit bounds the code checks
(`INT_MAX`, `INT_MIN`), the dense distance matrix becomes a function
`Nat → Nat → Nat` together with the declared-variable count, thrown
exceptions become `Except String` results, and a C++ function that mutates
state before throwing returns the partially updated state next to the error.
-/

namespace KernelSpec

/-- Sentinel distance value: `std::numeric_limits<int>::max()`, denotes "no
known bound" in the distance matrix (environment.cpp line 15). -/
def uninit : Nat := 2147483647

/-- Checked unsigned addition `add(unsigned v, unsigned k)`
(environment.cpp lines 39-44): fails with "universe overflow" when the exact
sum exceeds `INT_MAX - 1`. -/
def addU (v k : Nat) : Except String Nat :=
  if v + k > 2147483646 then .error "universe overflow" else .ok (v + k)

/-- Checked signed addition `add(int v, unsigned k)` (environment.cpp lines
30-36): fails when the exact sum exceeds `INT_MAX - 1`. -/
def addI (v : Int) (k : Nat) : Except String Int :=
  if v + (k : Int) > 2147483646 then .error "universe overflow" else .ok (v + (k : Int))

/-- Checked subtraction `sub(int v, unsigned k)` (environment.cpp lines
22-28): fails when the exact difference is below `INT_MIN`. -/
def subI (v : Int) (k : Nat) : Except String Int :=
  if v - (k : Int) < -2147483648 then .error "universe overflow" else .ok (v - (k : Int))

/-- The universe-level grammar consumed by the environment (an external
collaborator per the spec's data model): a universe variable carries its
dense index, `lift` adds a constant offset, `max` takes a finite list of
levels.  Variable names are kept separately in the environment's
declared-variable list. -/
inductive Level where
  | uvar (idx : Nat)
  | lift (l : Level) (off : Nat)
  | max (ls : List Level)

/-- State of `environment::imp`: the declared universe-variable names (the
index of a name in this list is its dense `uvar` index, mirroring
`m_uvars`) and the distance matrix `m_uvar_distances`, embedded as a total
function on indices; entries that the C++ vectors do not hold are `uninit`. -/
structure UvarEnv where
  uvars : List String
  dist : Nat → Nat → Nat

/-- Number of declared universe variables (`m_uvar_distances.size()`,
which the code keeps equal to `m_uvars.size()`). -/
def UvarEnv.num (e : UvarEnv) : Nat := e.uvars.length

/-- The freshly constructed environment after `init_uvars()`: one variable
(the canonical zero level, index 0) whose diagonal distance is 0. -/
def initEnv : UvarEnv :=
  { uvars := [""]
    dist := fun i j => if i = 0 ∧ j = 0 then 0 else uninit }

mutual

/-- Decision procedure `is_ge(l1, l2, k)` (environment.cpp lines 47-63):
decides `l1 >= l2 + k`, propagating "universe overflow" failures of the
checked arithmetic exactly where the C++ would throw. -/
def is_ge (e : UvarEnv) : Level → Level → Int → Except String Bool
  | l1, .uvar v2, k =>
    match l1 with
    | .uvar v1 =>
      .ok (decide (e.dist v1 v2 ≠ uninit) &&
           (decide (k < 0) || (decide (0 ≤ k) && decide (k.toNat ≤ e.dist v1 v2))))
    | .lift l1 off => do is_ge e l1 (.uvar v2) (← subI k off)
    | .max ls => is_ge_any e ls (.uvar v2) k
  | l1, .lift l2 off, k => do is_ge e l1 l2 (← addI k off)
  | l1, .max ls, k => is_ge_all e l1 ls k
termination_by l1 l2 _ => sizeOf l1 + sizeOf l2
decreasing_by all_goals (simp_wf <;> omega)

/-- The `std::any_of` loop in `is_ge`'s `Max`-on-the-left case: succeeds as
soon as one member satisfies the bound, propagating exceptions. -/
def is_ge_any (e : UvarEnv) : List Level → Level → Int → Except String Bool
  | [], _, _ => .ok false
  | l :: ls, l2, k => do
    if (← is_ge e l l2 k) then .ok true else is_ge_any e ls l2 k
termination_by ls l2 _ => sizeOf ls + sizeOf l2
decreasing_by all_goals (simp_wf <;> omega)

/-- The `std::all_of` loop in `is_ge`'s `Max`-on-the-right case: fails as
soon as one member misses the bound, propagating exceptions. -/
def is_ge_all (e : UvarEnv) : Level → List Level → Int → Except String Bool
  | _, [], _ => .ok true
  | l1, l :: ls, k => do
    if (← is_ge e l1 l k) then is_ge_all e l1 ls k else .ok false
termination_by l1 ls _ => sizeOf l1 + sizeOf ls
decreasing_by all_goals (simp_wf <;> omega)

end

/-- Declaration of a fresh universe variable, `add_var(name)` (environment.cpp
lines 69-81): fails on a duplicate name before any mutation; otherwise appends
the name, extends every existing row by an `uninit` column, and appends a
fresh all-`uninit` row with a 0 diagonal.  Returns the new index. -/
def add_var (e : UvarEnv) (n : String) : Except String (UvarEnv × Nat) :=
  if e.uvars.contains n then
    .error "invalid universe variable declaration, it has already been declared"
  else
    .ok ({ uvars := e.uvars ++ [n]
           dist := fun i j =>
             if i = e.uvars.length then (if j = e.uvars.length then 0 else uninit)
             else if j = e.uvars.length then uninit else e.dist i j },
         e.uvars.length)

/-- Point update of the distance matrix (`v1_dists[v2] = d`). -/
def updMat (m : Nat → Nat → Nat) (i j v : Nat) : Nat → Nat → Nat :=
  fun a b => if a = i ∧ b = j then v else m a b

/-- The propagation loop of `add_constraint` (environment.cpp lines 91-100),
iterating `v3` over the given index list (the code uses `0, ..., num-1`).
An overflow in the checked addition aborts the loop and surfaces the
exception together with the matrix as mutated so far, exactly as a thrown
C++ exception leaves the live vectors. -/
def prop_fold (v1 v2 d : Nat) : List Nat → (Nat → Nat → Nat) →
    (Nat → Nat → Nat) × Option String
  | [], m => (m, none)
  | j :: js, m =>
    if m v2 j ≠ uninit then
      match addU d (m v2 j) with
      | .error msg => (m, some msg)
      | .ok r =>
        prop_fold v1 v2 d js
          (if m v1 j = uninit ∨ r ≥ m v1 j then updMat m v1 j r else m)
    else prop_fold v1 v2 d js m

/-- Primitive edge insertion `add_constraint(v1, v2, d)` (environment.cpp
lines 83-102): when the new bound widens the known one it is written first,
then the propagation loop relaxes the row of `v1` through the row of `v2`.
The second component carries the "universe overflow" exception when the
propagation's checked addition fails; the first component is the state the
C++ object is left in (including partial updates). -/
def add_constraint (e : UvarEnv) (v1 v2 d : Nat) : UvarEnv × Option String :=
  if e.dist v1 v2 = uninit ∨ d ≥ e.dist v1 v2 then
    let r := prop_fold v1 v2 d (List.range e.num) (updMat e.dist v1 v2 d)
    ({ e with dist := r.1 }, r.2)
  else (e, none)

mutual

/-- Recursive constraint decomposition `add_constraints(v1, l, k)`
(environment.cpp lines 104-111): a variable emits one edge, a lift recurses
with a checked offset addition, a max asserts every member. -/
def add_constraints (e : UvarEnv) (v1 : Nat) : Level → Nat → UvarEnv × Option String
  | .uvar u, k => add_constraint e v1 u k
  | .lift l off, k =>
    match addU k off with
    | .error msg => (e, some msg)
    | .ok k1 => add_constraints e v1 l k1
  | .max ls, k => add_constraints_list e v1 ls k
termination_by l _ => sizeOf l
decreasing_by all_goals (simp_wf <;> omega)

/-- The `std::for_each` loop over a max's members: stops at the first
exception, keeping the state mutated so far. -/
def add_constraints_list (e : UvarEnv) (v1 : Nat) : List Level → Nat → UvarEnv × Option String
  | [], _ => (e, none)
  | l :: ls, k =>
    match add_constraints e v1 l k with
    | (e1, none) => add_constraints_list e1 v1 ls k
    | (e1, some msg) => (e1, some msg)
termination_by ls _ => sizeOf ls
decreasing_by all_goals (simp_wf <;> omega)

end

/-- Definition of a fresh universe variable `define_uvar(n, l)`
(environment.cpp lines 113-117): declares the variable, then asserts every
lower bound implied by `l` at offset 0.  A duplicate-name failure happens
before any mutation; a constraint failure keeps the partial state. -/
def define_uvar (e : UvarEnv) (n : String) (l : Level) : UvarEnv × Option String :=
  match add_var e n with
  | .error msg => (e, some msg)
  | .ok (e1, idx) => add_constraints e1 idx l 0

/-- Total wrapper for `add_var` used to describe reachable states: on the
(mutation-free) duplicate-name failure the environment is unchanged. -/
def add_var! (e : UvarEnv) (n : String) : UvarEnv :=
  match add_var e n with
  | .ok p => p.1
  | .error _ => e

/-- Unfolding equation for `is_ge` on two universe variables. -/
theorem is_ge_uvar_uvar (e : UvarEnv) (v1 v2 : Nat) (k : Int) :
    is_ge e (.uvar v1) (.uvar v2) k =
      .ok (decide (e.dist v1 v2 ≠ uninit) &&
           (decide (k < 0) || (decide (0 ≤ k) && decide (k.toNat ≤ e.dist v1 v2)))) := by
  simp [is_ge]

/-- Unfolding equation for `is_ge` with a lift on the left and a variable on
the right. -/
theorem is_ge_lift_uvar (e : UvarEnv) (l1 : Level) (off : Nat) (v2 : Nat) (k : Int) :
    is_ge e (.lift l1 off) (.uvar v2) k =
      (subI k off >>= fun k1 => is_ge e l1 (.uvar v2) k1) := by
  simp [is_ge]

/-- Unfolding equation for `add_constraints` on a variable level. -/
theorem add_constraints_uvar (e : UvarEnv) (v1 u k : Nat) :
    add_constraints e v1 (.uvar u) k = add_constraint e v1 u k := by
  simp [add_constraints]

/-- Unfolding equation for `add_constraints` on a lifted level. -/
theorem add_constraints_lift (e : UvarEnv) (v1 : Nat) (l : Level) (off k : Nat) :
    add_constraints e v1 (.lift l off) k =
      match addU k off with
      | .error msg => (e, some msg)
      | .ok k1 => add_constraints e v1 l k1 := by
  simp [add_constraints]

/-- Successful checked unsigned addition computes the exact sum, and that sum
is strictly below the sentinel. -/
theorem addU_ok {d x r : Nat} (h : addU d x = .ok r) : r = d + x ∧ r < uninit := by
  unfold addU at h
  split at h
  · exact absurd h (by simp)
  · next hle =>
    refine ⟨by injection h with h; omega, ?_⟩
    injection h with h
    unfold uninit
    omega

/-- No variable other than `v1` itself has a proven bound down to `v1`
(within the declared range): the state of a freshly declared variable. -/
def NoIncoming (e : UvarEnv) (v1 : Nat) : Prop :=
  ∀ x < e.num, x ≠ v1 → e.dist x v1 = uninit

instance (e : UvarEnv) (v1 : Nat) : Decidable (NoIncoming e v1) := by
  unfold NoIncoming; infer_instance

/-- All diagonal entries of the distance matrix are 0. -/
def Diag (e : UvarEnv) : Prop := ∀ v < e.num, e.dist v v = 0

/-- Every known (non-sentinel) entry lies inside the declared range. -/
def InRange (e : UvarEnv) : Prop :=
  ∀ x y : Nat, e.dist x y ≠ uninit → x < e.num ∧ y < e.num

/-- The distance matrix is transitively closed: any two known bounds chain
to a known bound at least as large as their sum. -/
def Closed (e : UvarEnv) : Prop :=
  ∀ a b c : Nat, e.dist a b ≠ uninit → e.dist b c ≠ uninit →
    e.dist a c ≠ uninit ∧ e.dist a b + e.dist b c ≤ e.dist a c

/-- Environments reachable through the code's actual write pattern: variable
declarations, and successful `add_constraint` calls whose source variable has
no incoming edges at insertion time.  This is exactly how `define_uvar`
drives `add_constraint` (the source is always the freshly declared
variable). -/
inductive Reachable : UvarEnv → Prop where
  | init : Reachable initEnv
  | var (e : UvarEnv) (n : String) : Reachable e → Reachable (add_var! e n)
  | constraint (e : UvarEnv) (v1 v2 d : Nat) : Reachable e →
      v1 ≠ v2 → v1 < e.num → v2 < e.num → NoIncoming e v1 →
      (add_constraint e v1 v2 d).2 = none →
      Reachable (add_constraint e v1 v2 d).1

/-- Reading the updated matrix at the updated cell. -/
theorem updMat_self (m : Nat → Nat → Nat) (i j v : Nat) : updMat m i j v i j = v := by
  simp [updMat]

/-- Reading the updated matrix anywhere else. -/
theorem updMat_ne (m : Nat → Nat → Nat) (i j v a b : Nat) (h : ¬(a = i ∧ b = j)) :
    updMat m i j v a b = m a b := by
  simp [updMat, h]

/-- The propagation loop never touches a row other than `v1`'s. -/
theorem prop_fold_other_row (v1 v2 d : Nat) (js : List Nat)
    (m : Nat → Nat → Nat) (i j : Nat) (hi : i ≠ v1) :
    (prop_fold v1 v2 d js m).1 i j = m i j := by
  induction js generalizing m with
  | nil => rfl
  | cons j0 js ih =>
    unfold prop_fold
    split
    · split
      · rfl
      · next r heq =>
        rw [ih]
        split
        · simp [updMat, hi]
        · rfl
    · exact ih m

/-- The propagation loop only widens: every entry of the resulting matrix is
either unchanged, or a new value strictly below the sentinel that replaces
an unknown entry or increases a known one.  This holds on the overflow path
as well: the entries written before the failure are genuine widenings. -/
theorem prop_fold_widen (v1 v2 d : Nat) (js : List Nat)
    (m : Nat → Nat → Nat) (i j : Nat) :
    (prop_fold v1 v2 d js m).1 i j = m i j ∨
      ((prop_fold v1 v2 d js m).1 i j < uninit ∧
        (m i j = uninit ∨ m i j ≤ (prop_fold v1 v2 d js m).1 i j)) := by
  induction js generalizing m with
  | nil => left; rfl
  | cons j0 js ih =>
    unfold prop_fold
    split
    · split
      · left; rfl
      · next r heq =>
        obtain ⟨hr, hrlt⟩ := addU_ok heq
        split
        · next hguard =>
          rcases ih (updMat m v1 j0 r) with h | ⟨h1, h2⟩
          · by_cases hij : i = v1 ∧ j = j0
            · obtain ⟨hi, hj⟩ := hij
              subst hi; subst hj
              rw [h, updMat_self]
              refine Or.inr ⟨hrlt, ?_⟩
              rcases hguard with hg | hg
              · exact Or.inl hg
              · exact Or.inr hg
            · rw [h, updMat_ne m v1 j0 r i j hij]
              exact Or.inl rfl
          · by_cases hij : i = v1 ∧ j = j0
            · obtain ⟨hi, hj⟩ := hij
              subst hi; subst hj
              rw [updMat_self] at h2
              refine Or.inr ⟨h1, ?_⟩
              rcases h2 with h2 | h2
              · exact absurd h2 (by omega)
              · rcases hguard with hg | hg
                · exact Or.inl hg
                · exact Or.inr (le_trans hg h2)
            · rw [updMat_ne m v1 j0 r i j hij] at h2
              exact Or.inr ⟨h1, h2⟩
        · exact ih m
    · exact ih m

/-- Step equation of the propagation loop. -/
theorem prop_fold_cons (v1 v2 d j0 : Nat) (js : List Nat) (m : Nat → Nat → Nat) :
    prop_fold v1 v2 d (j0 :: js) m =
      if m v2 j0 ≠ uninit then
        match addU d (m v2 j0) with
        | .error msg => (m, some msg)
        | .ok r =>
          prop_fold v1 v2 d js
            (if m v1 j0 = uninit ∨ r ≥ m v1 j0 then updMat m v1 j0 r else m)
      else prop_fold v1 v2 d js m := rfl

/-- Step equation: the checked addition overflows, the loop stops. -/
theorem prop_fold_cons_err {v1 v2 d j0 : Nat} {js : List Nat}
    {m : Nat → Nat → Nat} {msg : String}
    (hcond : m v2 j0 ≠ uninit) (haddU : addU d (m v2 j0) = .error msg) :
    prop_fold v1 v2 d (j0 :: js) m = (m, some msg) := by
  rw [prop_fold_cons, if_pos hcond, haddU]

/-- Step equation: the checked addition succeeds, the loop relaxes and
continues. -/
theorem prop_fold_cons_ok {v1 v2 d j0 : Nat} {js : List Nat}
    {m : Nat → Nat → Nat} {r : Nat}
    (hcond : m v2 j0 ≠ uninit) (haddU : addU d (m v2 j0) = .ok r) :
    prop_fold v1 v2 d (j0 :: js) m =
      prop_fold v1 v2 d js
        (if m v1 j0 = uninit ∨ r ≥ m v1 j0 then updMat m v1 j0 r else m) := by
  rw [prop_fold_cons, if_pos hcond, haddU]

/-- Step equation: no known bound from `v2`, the column is skipped. -/
theorem prop_fold_cons_skip {v1 v2 d j0 : Nat} {js : List Nat}
    {m : Nat → Nat → Nat} (hcond : ¬m v2 j0 ≠ uninit) :
    prop_fold v1 v2 d (j0 :: js) m = prop_fold v1 v2 d js m := by
  rw [prop_fold_cons, if_neg hcond]

/-- A known row-`v1` entry stays known and can only grow across the loop. -/
theorem prop_fold_keep (v1 v2 d : Nat) (js : List Nat) (m : Nat → Nat → Nat)
    (j : Nat) (h : m v1 j ≠ uninit) :
    (prop_fold v1 v2 d js m).1 v1 j ≠ uninit ∧
      m v1 j ≤ (prop_fold v1 v2 d js m).1 v1 j := by
  rcases prop_fold_widen v1 v2 d js m v1 j with hw | ⟨h1, h2⟩
  · rw [hw]; exact ⟨h, le_refl _⟩
  · refine ⟨by omega, ?_⟩
    rcases h2 with h2 | h2
    · exact absurd h2 h
    · exact h2

/-- Columns the loop never visits keep their row-`v1` entry. -/
theorem prop_fold_not_mem (v1 v2 d : Nat) (js : List Nat) (m : Nat → Nat → Nat)
    (j : Nat) (hj : j ∉ js) :
    (prop_fold v1 v2 d js m).1 v1 j = m v1 j := by
  induction js generalizing m with
  | nil => rfl
  | cons j0 js ih =>
    have hj0 : j ≠ j0 := fun h => hj (h ▸ List.mem_cons_self j0 js)
    have hjs : j ∉ js := fun h => hj (List.mem_cons_of_mem j0 h)
    unfold prop_fold
    split
    · split
      · rfl
      · next r heq =>
        rw [ih _ hjs]
        split
        · rw [updMat_ne m v1 j0 r v1 j (fun h => hj0 h.2)]
        · rfl
    · exact ih m hjs

/-- Reading the relaxed matrix on the source row `v2` (unchanged when
`v1 ≠ v2`) and the fact that the relax step widens the target cell. -/
theorem relax_facts {v1 v2 d j0 r : Nat} (m : Nat → Nat → Nat) (_h12 : v1 ≠ v2)
    (hr : r = d + m v2 j0) (hrlt : r < uninit) :
    (∀ x y, x ≠ v1 →
      (if m v1 j0 = uninit ∨ r ≥ m v1 j0 then updMat m v1 j0 r else m) x y = m x y) ∧
    (∀ y, y ≠ j0 →
      (if m v1 j0 = uninit ∨ r ≥ m v1 j0 then updMat m v1 j0 r else m) v1 y = m v1 y) ∧
    ((if m v1 j0 = uninit ∨ r ≥ m v1 j0 then updMat m v1 j0 r else m) v1 j0 ≠ uninit ∧
      d + m v2 j0 ≤ (if m v1 j0 = uninit ∨ r ≥ m v1 j0 then updMat m v1 j0 r else m) v1 j0) := by
  refine ⟨?_, ?_, ?_⟩
  · intro x y hx
    split
    · exact updMat_ne m v1 j0 r x y (fun h => hx h.1)
    · rfl
  · intro y hy
    split
    · exact updMat_ne m v1 j0 r v1 y (fun h => hy h.2)
    · rfl
  · split
    · next hguard => rw [updMat_self]; exact ⟨by omega, by omega⟩
    · next hguard =>
      push_neg at hguard
      exact ⟨hguard.1, by omega⟩

/-- On a successful loop, every visited column with a known bound from `v2`
ends with a known row-`v1` entry at least `d` plus that bound.  The source
row `v2` is never modified because `v1 ≠ v2`. -/
theorem prop_fold_ok_mem (v1 v2 d : Nat) (js : List Nat) (m : Nat → Nat → Nat)
    (h12 : v1 ≠ v2) (hok : (prop_fold v1 v2 d js m).2 = none)
    (j : Nat) (hj : j ∈ js) (hne : m v2 j ≠ uninit) :
    (prop_fold v1 v2 d js m).1 v1 j ≠ uninit ∧
      d + m v2 j ≤ (prop_fold v1 v2 d js m).1 v1 j := by
  induction js generalizing m with
  | nil => exact absurd hj (List.not_mem_nil j)
  | cons j0 js ih =>
    rw [List.mem_cons] at hj
    by_cases hcond : m v2 j0 ≠ uninit
    · cases haddU : addU d (m v2 j0) with
      | error msg =>
        rw [prop_fold_cons_err hcond haddU] at hok
        exact absurd hok (by simp)
      | ok r =>
        obtain ⟨hr, hrlt⟩ := addU_ok haddU
        rw [prop_fold_cons_ok hcond haddU] at hok ⊢
        obtain ⟨hother, hcol, hbase⟩ := relax_facts m h12 hr hrlt
        set m1 := if m v1 j0 = uninit ∨ r ≥ m v1 j0 then updMat m v1 j0 r else m with hm1
        rcases hj with hj | hj
        · subst hj
          have := prop_fold_keep v1 v2 d js m1 j hbase.1
          exact ⟨this.1, le_trans hbase.2 this.2⟩
        · have hrow2 : m1 v2 j = m v2 j := hother v2 j (fun h => h12 h.symm)
          have := ih m1 hok hj (by rw [hrow2]; exact hne)
          rw [hrow2] at this
          exact this
    · rw [prop_fold_cons_skip hcond] at hok ⊢
      rcases hj with hj | hj
      · subst hj
        simp at hcond
        exact absurd hcond hne
      · exact ih m hok hj hne

/-- On a successful loop over duplicate-free columns, the final row-`v1`
entry of a visited column with a known bound from `v2` is either the relaxed
value `d + dist v2 j` or the entry the loop started from. -/
theorem prop_fold_value (v1 v2 d : Nat) (js : List Nat) (m : Nat → Nat → Nat)
    (h12 : v1 ≠ v2) (hnd : js.Nodup) (hok : (prop_fold v1 v2 d js m).2 = none)
    (j : Nat) (hj : j ∈ js) (hne : m v2 j ≠ uninit) :
    (prop_fold v1 v2 d js m).1 v1 j = d + m v2 j ∨
      (prop_fold v1 v2 d js m).1 v1 j = m v1 j := by
  induction js generalizing m with
  | nil => exact absurd hj (List.not_mem_nil j)
  | cons j0 js ih =>
    rw [List.mem_cons] at hj
    have hnd' : js.Nodup := (List.nodup_cons.mp hnd).2
    have hj0 : j0 ∉ js := (List.nodup_cons.mp hnd).1
    by_cases hcond : m v2 j0 ≠ uninit
    · cases haddU : addU d (m v2 j0) with
      | error msg =>
        rw [prop_fold_cons_err hcond haddU] at hok
        exact absurd hok (by simp)
      | ok r =>
        obtain ⟨hr, hrlt⟩ := addU_ok haddU
        rw [prop_fold_cons_ok hcond haddU] at hok ⊢
        obtain ⟨hother, hcol, hbase⟩ := relax_facts m h12 hr hrlt
        set m1 := if m v1 j0 = uninit ∨ r ≥ m v1 j0 then updMat m v1 j0 r else m with hm1
        rcases hj with hj | hj
        · subst hj
          rw [prop_fold_not_mem v1 v2 d js m1 j hj0]
          rw [hm1]
          split
          · next hguard => rw [updMat_self]; omega
          · next hguard => right; rfl
        · have hj0' : j ≠ j0 := fun h => hj0 (h ▸ hj)
          have hrow2 : m1 v2 j = m v2 j := hother v2 j (fun h => h12 h.symm)
          have := ih m1 hnd' hok hj (by rw [hrow2]; exact hne)
          rw [hrow2] at this
          rcases this with h | h
          · exact Or.inl h
          · rw [h]
            rw [hcol j hj0']
            right; rfl
    · rw [prop_fold_cons_skip hcond] at hok ⊢
      rcases hj with hj | hj
      · subst hj
        simp at hcond
        exact absurd hcond hne
      · exact ih m hnd' hok hj hne

/-- Visited columns with no known bound from `v2` are skipped (duplicate-free
column list, any outcome). -/
theorem prop_fold_skip (v1 v2 d : Nat) (js : List Nat) (m : Nat → Nat → Nat)
    (h12 : v1 ≠ v2) (hnd : js.Nodup)
    (j : Nat) (hj : j ∈ js) (hne : m v2 j = uninit) :
    (prop_fold v1 v2 d js m).1 v1 j = m v1 j := by
  induction js generalizing m with
  | nil => exact absurd hj (List.not_mem_nil j)
  | cons j0 js ih =>
    rw [List.mem_cons] at hj
    have hnd' : js.Nodup := (List.nodup_cons.mp hnd).2
    have hj0 : j0 ∉ js := (List.nodup_cons.mp hnd).1
    by_cases hcond : m v2 j0 ≠ uninit
    · have hj0' : j ≠ j0 := by
        intro h
        subst h
        exact hcond hne
      have hj' : j ∈ js := by
        rcases hj with hj | hj
        · exact absurd hj hj0'
        · exact hj
      cases haddU : addU d (m v2 j0) with
      | error msg =>
        rw [prop_fold_cons_err hcond haddU]
      | ok r =>
        obtain ⟨hr, hrlt⟩ := addU_ok haddU
        rw [prop_fold_cons_ok hcond haddU]
        obtain ⟨hother, hcol, hbase⟩ := relax_facts m h12 hr hrlt
        set m1 := if m v1 j0 = uninit ∨ r ≥ m v1 j0 then updMat m v1 j0 r else m with hm1
        have hrow2 : m1 v2 j = m v2 j := hother v2 j (fun h => h12 h.symm)
        have := ih m1 hnd' hj' (by rw [hrow2]; exact hne)
        rw [this]
        exact hcol j hj0'
    · rw [prop_fold_cons_skip hcond]
      rcases hj with hj | hj
      · subst hj
        exact prop_fold_not_mem v1 v2 d js m j hj0
      · exact ih m hnd' hj hne

/-- When `d` is at least the sentinel every checked addition overflows, so
the loop cannot write anything before stopping. -/
theorem prop_fold_big_d (v1 v2 d : Nat) (js : List Nat) (m : Nat → Nat → Nat)
    (hd : uninit ≤ d) : (prop_fold v1 v2 d js m).1 = m := by
  induction js with
  | nil => rfl
  | cons j0 js ih =>
    by_cases hcond : m v2 j0 ≠ uninit
    · cases haddU : addU d (m v2 j0) with
      | error msg => rw [prop_fold_cons_err hcond haddU]
      | ok r =>
        obtain ⟨hr, hrlt⟩ := addU_ok haddU
        omega
    · rw [prop_fold_cons_skip hcond]
      exact ih

/-- Unfolding of `add_constraint` when the widening guard fails. -/
theorem add_constraint_no_guard {e : UvarEnv} {v1 v2 d : Nat}
    (h : ¬(e.dist v1 v2 = uninit ∨ d ≥ e.dist v1 v2)) :
    add_constraint e v1 v2 d = (e, none) := by
  unfold add_constraint
  rw [if_neg h]

/-- Unfolding of `add_constraint` when the widening guard passes. -/
theorem add_constraint_run {e : UvarEnv} {v1 v2 d : Nat}
    (h : e.dist v1 v2 = uninit ∨ d ≥ e.dist v1 v2) :
    add_constraint e v1 v2 d =
      ({ e with dist := (prop_fold v1 v2 d (List.range e.num) (updMat e.dist v1 v2 d)).1 },
        (prop_fold v1 v2 d (List.range e.num) (updMat e.dist v1 v2 d)).2) := by
  unfold add_constraint
  rw [if_pos h]

/-- `add_constraint` never changes the declared-variable list. -/
theorem add_constraint_uvars (e : UvarEnv) (v1 v2 d : Nat) :
    (add_constraint e v1 v2 d).1.uvars = e.uvars := by
  unfold add_constraint
  split <;> rfl

/-- `add_constraint` never touches a row other than `v1`'s. -/
theorem add_constraint_other_row (e : UvarEnv) (v1 v2 d i j : Nat) (hi : i ≠ v1) :
    (add_constraint e v1 v2 d).1.dist i j = e.dist i j := by
  by_cases h : e.dist v1 v2 = uninit ∨ d ≥ e.dist v1 v2
  · rw [add_constraint_run h]
    show (prop_fold v1 v2 d (List.range e.num) (updMat e.dist v1 v2 d)).1 i j = e.dist i j
    rw [prop_fold_other_row v1 v2 d _ _ i j hi]
    exact updMat_ne e.dist v1 v2 d i j (fun hh => hi hh.1)
  · rw [add_constraint_no_guard h]

/-- A successful `add_constraint` whose source variable had no incoming
edges preserves the three matrix invariants (0 diagonal, in-range entries,
transitive closure).  This is the code's actual usage pattern: `define_uvar`
always inserts edges out of the freshly declared variable. -/
theorem add_constraint_preserves (e : UvarEnv) (v1 v2 d : Nat)
    (hDiag : Diag e) (hIR : InRange e) (hCl : Closed e)
    (h12 : v1 ≠ v2) (hv1 : v1 < e.num) (hv2 : v2 < e.num) (hNI : NoIncoming e v1)
    (hok : (add_constraint e v1 v2 d).2 = none) :
    Diag (add_constraint e v1 v2 d).1 ∧ InRange (add_constraint e v1 v2 d).1 ∧
      Closed (add_constraint e v1 v2 d).1 := by
  by_cases hG : e.dist v1 v2 = uninit ∨ d ≥ e.dist v1 v2
  case neg =>
    rw [add_constraint_no_guard hG]
    exact ⟨hDiag, hIR, hCl⟩
  case pos =>
    rw [add_constraint_run hG] at hok ⊢
    set m1 := updMat e.dist v1 v2 d with hm1
    have hnum : ({ e with dist := (prop_fold v1 v2 d (List.range e.num) m1).1 } : UvarEnv).num
        = e.num := rfl
    simp only at hok
    -- basic facts about the starting matrix m1
    have hm1row2 : ∀ j, m1 v2 j = e.dist v2 j := by
      intro j
      exact updMat_ne e.dist v1 v2 d v2 j (fun hh => h12 hh.1.symm)
    have hm1r1ne : ∀ j, j ≠ v2 → m1 v1 j = e.dist v1 j := by
      intro j hj
      exact updMat_ne e.dist v1 v2 d v1 j (fun hh => hj hh.2)
    have hm1r1v2 : m1 v1 v2 = d := updMat_self e.dist v1 v2 d
    -- facts about the result matrix D'
    set DP := (prop_fold v1 v2 d (List.range e.num) m1).1 with hDP
    have fac_other : ∀ i j, i ≠ v1 → DP i j = e.dist i j := by
      intro i j hi
      rw [hDP, prop_fold_other_row v1 v2 d _ m1 i j hi]
      exact updMat_ne e.dist v1 v2 d i j (fun hh => hi hh.1)
    have fac_prop : ∀ j, j < e.num → e.dist v2 j ≠ uninit →
        DP v1 j ≠ uninit ∧ d + e.dist v2 j ≤ DP v1 j := by
      intro j hjn hjne
      have := prop_fold_ok_mem v1 v2 d (List.range e.num) m1 h12 hok j
        (List.mem_range.mpr hjn) (by rw [hm1row2]; exact hjne)
      rw [hm1row2] at this
      exact this
    have fac_val : ∀ j, j < e.num → e.dist v2 j ≠ uninit →
        DP v1 j = d + e.dist v2 j ∨ DP v1 j = m1 v1 j := by
      intro j hjn hjne
      have := prop_fold_value v1 v2 d (List.range e.num) m1 h12 (List.nodup_range e.num)
        hok j (List.mem_range.mpr hjn) (by rw [hm1row2]; exact hjne)
      rw [hm1row2] at this
      exact this
    have fac_skip : ∀ j, ¬(j < e.num ∧ e.dist v2 j ≠ uninit) → DP v1 j = m1 v1 j := by
      intro j hj
      by_cases hjn : j < e.num
      · have hjne : e.dist v2 j = uninit := by
          by_contra hc
          exact hj ⟨hjn, hc⟩
        exact prop_fold_skip v1 v2 d (List.range e.num) m1 h12 (List.nodup_range e.num)
          j (List.mem_range.mpr hjn) (by rw [hm1row2]; exact hjne)
      · exact prop_fold_not_mem v1 v2 d (List.range e.num) m1 j
          (fun hc => hjn (List.mem_range.mp hc))
    have fac_keep : ∀ j, m1 v1 j ≠ uninit → DP v1 j ≠ uninit ∧ m1 v1 j ≤ DP v1 j := by
      intro j hj
      exact prop_fold_keep v1 v2 d (List.range e.num) m1 j hj
    -- the new diagonal entry of row v1 (column v1 is skipped: no incoming edge)
    have hdiagv1 : DP v1 v1 = e.dist v1 v1 := by
      rw [fac_skip v1 (fun hc => hc.2 (hNI v2 hv2 (Ne.symm h12))), hm1r1ne v1 h12]
    -- diag
    have hDiag' : Diag { e with dist := DP } := by
      intro v hv
      by_cases hvv : v = v1
      · subst hvv
        show DP v v = 0
        rw [hdiagv1]
        exact hDiag v hv
      · show DP v v = 0
        rw [fac_other v v hvv]
        exact hDiag v hv
    -- in range
    have hIR' : InRange { e with dist := DP } := by
      intro x y hxy
      have hxy' : DP x y ≠ uninit := hxy
      show x < e.num ∧ y < e.num
      by_cases hx : x = v1
      · rw [hx] at hxy' ⊢
        refine ⟨hv1, ?_⟩
        by_cases hy : y < e.num
        · exact hy
        · exfalso
          have heq := fac_skip y (fun hc => hy hc.1)
          rw [heq] at hxy'
          by_cases hyv2 : y = v2
          · subst hyv2
            exact hy hv2
          · rw [hm1r1ne y hyv2] at hxy'
            exact hy (hIR v1 y hxy').2
      · rw [fac_other x y hx] at hxy'
        exact hIR x y hxy'
    -- closed
    have hCl' : Closed { e with dist := DP } := by
      intro a b c hab0 hbc0
      have hab : DP a b ≠ uninit := hab0
      have hbc : DP b c ≠ uninit := hbc0
      show DP a c ≠ uninit ∧ DP a b + DP b c ≤ DP a c
      by_cases ha : a = v1
      case neg =>
        rw [fac_other a b ha] at hab
        have hbv1 : b ≠ v1 := by
          intro hb
          subst hb
          have han : a < e.num := (hIR a b hab).1
          exact hab (hNI a han ha)
        rw [fac_other b c hbv1] at hbc
        rw [fac_other a b ha, fac_other b c hbv1, fac_other a c ha]
        exact hCl a b c hab hbc
      case pos =>
        rw [ha] at hab ⊢
        by_cases hb : b = v1
        · rw [hb] at hab hbc ⊢
          rw [show DP v1 v1 = 0 from hDiag' v1 hv1]
          exact ⟨hbc, by omega⟩
        · rw [fac_other b c hb] at hbc
          have hbn : b < e.num := (hIR b c hbc).1
          have hcn : c < e.num := (hIR b c hbc).2
          rw [fac_other b c hb]
          -- where did the entry DP v1 b come from?
          have origin : DP v1 b = d + e.dist v2 b ∧ e.dist v2 b ≠ uninit ∨
              DP v1 b = d ∧ b = v2 ∨
              DP v1 b = e.dist v1 b := by
            by_cases hb2 : e.dist v2 b ≠ uninit
            · rcases fac_val b hbn hb2 with h | h
              · exact Or.inl ⟨h, hb2⟩
              · by_cases hbv2 : b = v2
                · subst hbv2
                  rw [hm1r1v2] at h
                  exact Or.inr (Or.inl ⟨h, rfl⟩)
                · rw [hm1r1ne b hbv2] at h
                  exact Or.inr (Or.inr h)
            · have hbv2 : b ≠ v2 := by
                intro hbe
                subst hbe
                exact hb2 (by rw [hDiag b hbn]; unfold uninit; omega)
              have := fac_skip b (fun hc => hb2 hc.2)
              rw [hm1r1ne b hbv2] at this
              exact Or.inr (Or.inr this)
          rcases origin with ⟨hval, hb2⟩ | ⟨hval, hbv2⟩ | hval
          · -- propagated through v2: chain v2 -> b -> c in the old matrix
            obtain ⟨h2c, h2sum⟩ := hCl v2 b c hb2 hbc
            obtain ⟨hne', hge'⟩ := fac_prop c hcn h2c
            exact ⟨hne', by omega⟩
          · -- the direct edge: b = v2, chain through fac_prop at c
            rw [hbv2] at hbc hval ⊢
            obtain ⟨hne', hge'⟩ := fac_prop c hcn hbc
            exact ⟨hne', by omega⟩
          · -- an old entry of row v1: use the old closure and widening
            rw [hval] at hab
            obtain ⟨h1c, h1sum⟩ := hCl v1 b c hab hbc
            by_cases hcv2 : c = v2
            · rw [hcv2] at h1c h1sum ⊢
              have h0 : e.dist v2 v2 ≠ uninit := by
                rw [hDiag v2 hv2]
                unfold uninit
                omega
              obtain ⟨hne', hge'⟩ := fac_prop v2 hv2 h0
              rw [hDiag v2 hv2] at hge'
              have hd' : d ≥ e.dist v1 v2 := by
                rcases hG with hG | hG
                · exact absurd hG h1c
                · exact hG
              exact ⟨hne', by omega⟩
            · have := fac_keep c (by rw [hm1r1ne c hcv2]; exact h1c)
              rw [hm1r1ne c hcv2] at this
              exact ⟨this.1, by omega⟩
    exact ⟨hDiag', hIR', hCl'⟩

/-- On a duplicate name `add_var!` leaves the environment unchanged. -/
theorem add_var_bang_dup {e : UvarEnv} {n : String} (h : e.uvars.contains n = true) :
    add_var! e n = e := by
  unfold add_var! add_var
  rw [if_pos h]

/-- On a fresh name `add_var!` appends the name and extends the matrix by an
`uninit` column and an `uninit` row with 0 diagonal. -/
theorem add_var_bang_fresh {e : UvarEnv} {n : String} (h : ¬e.uvars.contains n = true) :
    add_var! e n =
      { uvars := e.uvars ++ [n]
        dist := fun i j =>
          if i = e.uvars.length then (if j = e.uvars.length then 0 else uninit)
          else if j = e.uvars.length then uninit else e.dist i j } := by
  unfold add_var! add_var
  rw [if_neg h]

/-- Declaring a fresh variable preserves the three matrix invariants: the
new row/column is all `uninit` except the 0 diagonal. -/
theorem add_var_preserves (e : UvarEnv) (n : String)
    (hDiag : Diag e) (hIR : InRange e) (hCl : Closed e) :
    Diag (add_var! e n) ∧ InRange (add_var! e n) ∧ Closed (add_var! e n) := by
  by_cases hdup : e.uvars.contains n = true
  case pos =>
    rw [add_var_bang_dup hdup]
    exact ⟨hDiag, hIR, hCl⟩
  case neg =>
    rw [add_var_bang_fresh hdup]
    set L := e.uvars.length with hL
    set e' : UvarEnv :=
      { uvars := e.uvars ++ [n]
        dist := fun i j =>
          if i = L then (if j = L then 0 else uninit)
          else if j = L then uninit else e.dist i j } with he'
    have hnum : e'.num = L + 1 := by
      show (e.uvars ++ [n]).length = L + 1
      simp [hL]
    have hLnum : e.num = L := rfl
    have hdist : ∀ i j, e'.dist i j =
        if i = L then (if j = L then 0 else uninit)
        else if j = L then uninit else e.dist i j := fun i j => rfl
    refine ⟨?_, ?_, ?_⟩
    · -- diag
      intro v hv
      rw [hnum] at hv
      rw [hdist]
      by_cases hvL : v = L
      · simp [hvL]
      · simp only [if_neg hvL]
        exact hDiag v (by omega)
    · -- in range
      intro x y hxy
      rw [hdist] at hxy
      rw [hnum]
      by_cases hxL : x = L
      · simp only [if_pos hxL] at hxy
        by_cases hyL : y = L
        · omega
        · simp only [if_neg hyL] at hxy
          exact absurd rfl hxy
      · simp only [if_neg hxL] at hxy
        by_cases hyL : y = L
        · simp only [if_pos hyL] at hxy
          exact absurd rfl hxy
        · simp only [if_neg hyL] at hxy
          have := hIR x y hxy
          omega
    · -- closed
      intro a b c hab hbc
      rw [hdist] at hab hbc
      rw [hdist, hdist, hdist]
      by_cases haL : a = L
      · simp only [if_pos haL] at hab ⊢
        by_cases hbL : b = L
        · simp only [if_pos hbL] at hab hbc ⊢
          by_cases hcL : c = L
          · simp only [if_pos hcL] at hbc ⊢
            unfold uninit
            omega
          · simp only [if_neg hcL] at hbc
            exact absurd rfl hbc
        · simp only [if_neg hbL] at hab
          exact absurd rfl hab
      · simp only [if_neg haL] at hab ⊢
        by_cases hbL : b = L
        · simp only [if_pos hbL] at hab
          exact absurd rfl hab
        · simp only [if_neg hbL] at hab hbc ⊢
          by_cases hcL : c = L
          · simp only [if_pos hcL] at hbc
            exact absurd rfl hbc
          · simp only [if_neg hcL] at hbc ⊢
            exact hCl a b c hab hbc

/-- The freshly constructed environment satisfies the three matrix
invariants. -/
theorem initEnv_invariants : Diag initEnv ∧ InRange initEnv ∧ Closed initEnv := by
  have hnum : initEnv.num = 1 := rfl
  have hcell : ∀ x y : Nat, initEnv.dist x y ≠ uninit → x = 0 ∧ y = 0 := by
    intro x y hxy
    by_contra hc
    exact hxy (show (if x = 0 ∧ y = 0 then 0 else uninit) = uninit from if_neg hc)
  have hzero : initEnv.dist 0 0 = 0 := by
    show (if (0 : Nat) = 0 ∧ (0 : Nat) = 0 then 0 else uninit) = 0
    simp
  refine ⟨?_, ?_, ?_⟩
  · intro v hv
    have hv' : v = 0 := by omega
    rw [hv']
    exact hzero
  · intro x y hxy
    obtain ⟨hx, hy⟩ := hcell x y hxy
    omega
  · intro a b c hab hbc
    obtain ⟨ha, hb⟩ := hcell a b hab
    obtain ⟨_, hc⟩ := hcell b c hbc
    rw [ha, hb, hzero] at hab
    rw [ha, hb, hc, hzero]
    exact ⟨hab, by omega⟩

/-- Every reachable environment satisfies the three matrix invariants;
in particular its distance matrix is transitively closed. -/
theorem reachable_invariants (e : UvarEnv) (h : Reachable e) :
    Diag e ∧ InRange e ∧ Closed e := by
  induction h with
  | init => exact initEnv_invariants
  | var e n _ ih => exact add_var_preserves e n ih.1 ih.2.1 ih.2.2
  | constraint e v1 v2 d _ h12 hv1 hv2 hNI hok ih =>
    exact add_constraint_preserves e v1 v2 d ih.1 ih.2.1 ih.2.2 h12 hv1 hv2 hNI hok

/-- The environment of spec scenario 1 with insertions in the claimed order:
declare `u1`, `u2`, then assert `u1 >= u2 + 3` and then `u2 >= u0 + 1`. -/
def envCl : UvarEnv :=
  (add_constraint (add_constraint (add_var! (add_var! initEnv "u1") "u2") 1 2 3).1 2 0 1).1

/-- The environment of spec scenario 1 with the insertions swapped:
assert `u2 >= u0 + 1` first and then `u1 >= u2 + 3`. -/
def envAm : UvarEnv :=
  (add_constraint (add_constraint (add_var! (add_var! initEnv "u1") "u2") 2 0 1).1 1 2 3).1

/-- C1: counterexample to the claim as stated.  With the two constraints of
scenario 1 inserted in the claimed order, `is_ge(u1, u2, 3)` and
`is_ge(u2, u0, 1)` hold but `is_ge(u1, u0, 3 + 1)` is false: `add_constraint`
only propagates forward through the new edge's target and never updates the
rows of the new source's predecessors, so the matrix is not transitively
closed after an arbitrary insertion. -/
theorem is_ge_trans_cex :
    is_ge envCl (.uvar 1) (.uvar 2) 3 = .ok true ∧
    is_ge envCl (.uvar 2) (.uvar 0) 1 = .ok true ∧
    is_ge envCl (.uvar 1) (.uvar 0) (3 + 1) = .ok false := by
  refine ⟨?_, ?_, ?_⟩ <;> (rw [is_ge_uvar_uvar]; rfl)

/-- C1 (amended): in every environment reachable through the code's write
pattern (`define_uvar`-style insertions, whose source variable is fresh and
has no incoming edges), `is_ge` on universe variables is transitive:
`is_ge(uA, uB, d1)` and `is_ge(uB, uC, d2)` imply `is_ge(uA, uC, d1+d2)`
without any explicit edge between `uA` and `uC`. -/
theorem uvar_is_ge_trans (e : UvarEnv) (a b c : Nat) (d1 d2 : Int)
    (hre : Reachable e)
    (h1 : is_ge e (.uvar a) (.uvar b) d1 = .ok true)
    (h2 : is_ge e (.uvar b) (.uvar c) d2 = .ok true) :
    is_ge e (.uvar a) (.uvar c) (d1 + d2) = .ok true := by
  obtain ⟨_, _, hCl⟩ := reachable_invariants e hre
  rw [is_ge_uvar_uvar] at h1 h2 ⊢
  simp only [Except.ok.injEq, Bool.and_eq_true, Bool.or_eq_true,
    decide_eq_true_eq] at h1 h2 ⊢
  obtain ⟨hne1, hk1⟩ := h1
  obtain ⟨hne2, hk2⟩ := h2
  obtain ⟨hnec, hsum⟩ := hCl a b c hne1 hne2
  refine ⟨hnec, ?_⟩
  rcases hk1 with hk1 | ⟨hk1a, hk1b⟩ <;> rcases hk2 with hk2 | ⟨hk2a, hk2b⟩ <;> omega

/-- Reachable scenario for the C1 witness: `u1 >= u0 + 2` asserted when `u1`
is fresh, then `u2 >= u1 + 3` asserted when `u2` is fresh. -/
def envW4 : UvarEnv :=
  (add_constraint (add_var! (add_constraint (add_var! initEnv "u1") 1 0 2).1 "u2") 2 1 3).1

theorem uvar_is_ge_trans_witness :
    is_ge envW4 (.uvar 2) (.uvar 1) 3 = .ok true ∧
    is_ge envW4 (.uvar 1) (.uvar 0) 2 = .ok true ∧
    is_ge envW4 (.uvar 2) (.uvar 0) (3 + 2) = .ok true := by
  have hr1 : Reachable (add_var! initEnv "u1") := Reachable.var initEnv "u1" Reachable.init
  have hr2 : Reachable (add_constraint (add_var! initEnv "u1") 1 0 2).1 :=
    Reachable.constraint (add_var! initEnv "u1") 1 0 2 hr1 (by decide) (by decide) (by decide)
      (by decide) (by decide)
  have hr3 : Reachable (add_var! (add_constraint (add_var! initEnv "u1") 1 0 2).1 "u2") :=
    Reachable.var _ "u2" hr2
  have hr4 : Reachable envW4 :=
    Reachable.constraint _ 2 1 3 hr3 (by decide) (by decide) (by decide) (by decide) (by decide)
  have h1 : is_ge envW4 (.uvar 2) (.uvar 1) 3 = .ok true := by rw [is_ge_uvar_uvar]; rfl
  have h2 : is_ge envW4 (.uvar 1) (.uvar 0) 2 = .ok true := by rw [is_ge_uvar_uvar]; rfl
  exact ⟨h1, h2, uvar_is_ge_trans envW4 2 1 0 3 2 hr4 h1 h2⟩

/-- C2: counterexample to the claim as stated.  After asserting
`u1 >= u2 + 3` and then `u2 >= u0 + 1` in that order, `is_ge(u1, u0, 4)`
returns false (not true as claimed): the second insertion never revisits the
row of `u1`. -/
theorem scenario1_order_cex :
    is_ge envCl (.uvar 1) (.uvar 0) 4 = .ok false := by
  rw [is_ge_uvar_uvar]; rfl

/-- C2 (amended): with the two assertions swapped — `u2 >= u0 + 1` first,
then `u1 >= u2 + 3` — the queries behave as the scenario expects:
`is_ge(u1, u0, 4)` is true and `is_ge(u1, u0, 5)` is false. -/
theorem scenario1_swapped :
    is_ge envAm (.uvar 1) (.uvar 0) 4 = .ok true ∧
    is_ge envAm (.uvar 1) (.uvar 0) 5 = .ok false := by
  refine ⟨?_, ?_⟩ <;> (rw [is_ge_uvar_uvar]; rfl)

/-- Environment used by the C3 counterexample: `u1 >= u0 + (INT_MAX - 1)`
already recorded, `u2` freshly declared. -/
def envP3 : UvarEnv :=
  add_var! (add_constraint (add_var! initEnv "u1") 1 0 2147483646).1 "u2"

/-- C3: counterexample to the claim as stated.  Asserting
`u2 >= u1 + (INT_MAX - 1)` on `envP3` overflows during propagation
(`(INT_MAX-1) + (INT_MAX-1) > INT_MAX - 1`), and the failing call has
already written the direct entry `distances[2][1]`: the matrix is not left
as it was. -/
theorem failed_insertion_partial_write_cex :
    (add_constraint envP3 2 1 2147483646).2 = some "universe overflow" ∧
    (add_constraint envP3 2 1 2147483646).1.dist 2 1 = 2147483646 ∧
    envP3.dist 2 1 = uninit := ⟨rfl, rfl, rfl⟩

/-- C3 (amended): a failing insertion may leave the matrix partially
updated (the direct entry, and the propagation entries processed before the
overflow), but every change is a widening: each entry either keeps its old
value, or was unknown, or only grew.  The "only ever widen" invariant is
never violated, even by a failed insertion. -/
theorem add_constraint_only_widens (e : UvarEnv) (v1 v2 d i j : Nat) :
    e.dist i j = uninit ∨ e.dist i j ≤ (add_constraint e v1 v2 d).1.dist i j := by
  by_cases hG : e.dist v1 v2 = uninit ∨ d ≥ e.dist v1 v2
  case neg =>
    rw [add_constraint_no_guard hG]
    exact Or.inr (le_refl _)
  case pos =>
    rw [add_constraint_run hG]
    set m1 := updMat e.dist v1 v2 d with hm1
    show e.dist i j = uninit ∨ e.dist i j ≤ (prop_fold v1 v2 d (List.range e.num) m1).1 i j
    have hm1ij : m1 i j = if i = v1 ∧ j = v2 then d else e.dist i j := rfl
    rcases prop_fold_widen v1 v2 d (List.range e.num) m1 i j with hw | ⟨h1, h2⟩
    · rw [hw, hm1ij]
      by_cases hij : i = v1 ∧ j = v2
      · rw [if_pos hij]
        rcases hG with hG | hG
        · rw [hij.1, hij.2]
          exact Or.inl hG
        · rw [hij.1, hij.2]
          exact Or.inr hG
      · rw [if_neg hij]
        exact Or.inr (le_refl _)
    · rw [hm1ij] at h2
      by_cases hij : i = v1 ∧ j = v2
      · rw [if_pos hij] at h2
        rcases h2 with h2 | h2
        · -- d itself is the sentinel: then every propagation step overflows
          -- before writing, so the matrix would still be m1 — contradiction
          -- with the written value being below the sentinel.
          exfalso
          have hbig := prop_fold_big_d v1 v2 d (List.range e.num) m1 (le_of_eq h2.symm)
          rw [hbig, hm1ij, if_pos hij, h2] at h1
          omega
        · rw [← hij.1, ← hij.2] at hG
          rcases hG with hG | hG
          · exact Or.inl hG
          · exact Or.inr (le_trans hG h2)
      · rw [if_neg hij] at h2
        exact h2

/-- C4: counterexample to the claim as stated.  When the checked subtraction
in the lift-on-the-left case underflows, `is_ge` does not decide false: it
escalates the "universe overflow" exception. -/
theorem is_ge_underflow_cex :
    is_ge initEnv (.lift (.uvar 0) 4294967295) (.uvar 0) 0 = .error "universe overflow" ∧
    is_ge initEnv (.lift (.uvar 0) 4294967295) (.uvar 0) 0 ≠ .ok false := by
  have h : is_ge initEnv (.lift (.uvar 0) 4294967295) (.uvar 0) 0
      = .error "universe overflow" := by
    rw [is_ge_lift_uvar]
    rw [show subI 0 4294967295 = .error "universe overflow" from rfl]
    rfl
  exact ⟨h, by rw [h]; intro hc; cases hc⟩

/-- C4 (amended): when `k - off` underflows `INT_MIN`, the query
`is_ge(lift(L1', off), uvar, k)` fails with the "universe overflow"
exception — it neither wraps around nor decides false. -/
theorem is_ge_underflow_raises (e : UvarEnv) (l1 : Level) (off : Nat) (v2 : Nat) (k : Int)
    (h : k - (off : Int) < -2147483648) :
    is_ge e (.lift l1 off) (.uvar v2) k = .error "universe overflow" := by
  rw [is_ge_lift_uvar]
  have hsub : subI k off = .error "universe overflow" := by
    unfold subI
    rw [if_pos h]
  rw [hsub]
  rfl

theorem is_ge_underflow_raises_witness :
    (0 : Int) - (4294967295 : Nat) < -2147483648 ∧
    is_ge initEnv (.lift (.max []) 4294967295) (.uvar 0) 0 = .error "universe overflow" :=
  ⟨by decide, is_ge_underflow_raises initEnv (.max []) 4294967295 0 0 (by decide)⟩

/-- C10: every distance value stored by `add_constraint` — by the direct
insertion or by propagation — is strictly below the sentinel `uninit`,
provided the inserted `d` is (as it always is in the program, where `d`
reaches `add_constraint` only through `add_constraints`, which produces it
with the checked addition): after the call each entry is either untouched or
holds a value `< uninit`. -/
theorem add_constraint_stores_below_sentinel (e : UvarEnv) (v1 v2 d i j : Nat)
    (hd : d < uninit) :
    (add_constraint e v1 v2 d).1.dist i j = e.dist i j ∨
      (add_constraint e v1 v2 d).1.dist i j < uninit := by
  by_cases hG : e.dist v1 v2 = uninit ∨ d ≥ e.dist v1 v2
  case neg =>
    rw [add_constraint_no_guard hG]
    exact Or.inl rfl
  case pos =>
    rw [add_constraint_run hG]
    set m1 := updMat e.dist v1 v2 d with hm1
    show (prop_fold v1 v2 d (List.range e.num) m1).1 i j = e.dist i j ∨
      (prop_fold v1 v2 d (List.range e.num) m1).1 i j < uninit
    have hm1ij : m1 i j = if i = v1 ∧ j = v2 then d else e.dist i j := rfl
    rcases prop_fold_widen v1 v2 d (List.range e.num) m1 i j with hw | ⟨h1, _⟩
    · rw [hw, hm1ij]
      by_cases hij : i = v1 ∧ j = v2
      · rw [if_pos hij]
        exact Or.inr hd
      · rw [if_neg hij]
        exact Or.inl rfl
    · exact Or.inr h1

theorem add_constraint_stores_below_sentinel_witness :
    (3 : Nat) < uninit ∧
    ((add_constraint (add_var! initEnv "u1") 1 0 3).1.dist 1 0
        = (add_var! initEnv "u1").dist 1 0 ∨
      (add_constraint (add_var! initEnv "u1") 1 0 3).1.dist 1 0 < uninit) :=
  ⟨by decide, add_constraint_stores_below_sentinel (add_var! initEnv "u1") 1 0 3 1 0 (by decide)⟩

/-- Universe levels as consumed by the substitution engine (the lean4-style
level grammar of kernel/level.h, an external collaborator: zero, successor,
max, and named parameters).  Modelled from the spec's data model. -/
inductive Lvl where
  | zero
  | succ (l : Lvl)
  | lmax (a b : Lvl)
  | param (n : String)
deriving DecidableEq

/-- Whether a level mentions a named universe parameter (the cached
`has_param` flag of the level collaborator). -/
def Lvl.has_param : Lvl → Bool
  | .zero => false
  | .succ l => l.has_param
  | .lmax a b => a.has_param || b.has_param
  | .param _ => true

/-- Modelled from the spec: `instantiate(level, lps, ls)` of kernel/level.h
(not under src/), which "rewrites the attached level list/level by
substituting parameter names for concrete levels".  A parameter not bound by
the (name, level) association is left unchanged. -/
def Lvl.instantiate (lps : List String) (ls : List Lvl) : Lvl → Lvl
  | .zero => .zero
  | .succ l => .succ (l.instantiate lps ls)
  | .lmax a b => .lmax (a.instantiate lps ls) (b.instantiate lps ls)
  | .param n =>
    match (lps.zip ls).find? (fun p => p.1 == n) with
    | some p => p.2
    | none => .param n

/-- The expression tree consumed by the substitution engine (an external
collaborator per the spec's data model): bound-variable references with de
Bruijn indices, applications, lambdas (binder domain and body), constants
with concrete level lists, and sorts. -/
inductive Expr where
  | bvar (idx : Nat)
  | app (f a : Expr)
  | lam (ty body : Expr)
  | const (n : String) (ls : List Lvl)
  | sort (l : Lvl)

/-- Structural boolean equality on expressions. -/
def Expr.beq : Expr → Expr → Bool
  | .bvar i, .bvar j => i == j
  | .app f a, .app g b => f.beq g && a.beq b
  | .lam t b, .lam u c => t.beq u && b.beq c
  | .const n ls, .const n1 ls1 => n == n1 && ls == ls1
  | .sort l, .sort l1 => l == l1
  | _, _ => false

/-- The boolean equality decides propositional equality. -/
theorem Expr.beq_correct (a b : Expr) : a.beq b = true ↔ a = b := by
  induction a generalizing b with
  | bvar i => cases b <;> simp [Expr.beq]
  | app f x ihf ihx => cases b <;> simp [Expr.beq, ihf, ihx]
  | lam t v iht ihv => cases b <;> simp [Expr.beq, iht, ihv]
  | const n ls => cases b <;> simp [Expr.beq]
  | sort l => cases b <;> simp [Expr.beq]

instance : DecidableEq Expr := fun a b => decidable_of_iff _ (Expr.beq_correct a b)

/-- The cached "loose-bvar range" of a node: 0 when the subtree has no loose
bound variable, otherwise the maximum loose index plus one (the expression
collaborator computes this once at construction; the shallow embedding
recomputes it structurally). -/
def get_loose_bvar_range : Expr → Nat
  | .bvar i => i + 1
  | .app f a => max (get_loose_bvar_range f) (get_loose_bvar_range a)
  | .lam t b => max (get_loose_bvar_range t) (get_loose_bvar_range b - 1)
  | .const _ _ => 0
  | .sort _ => 0

/-- The cached "has loose bound variables" flag: range nonzero. -/
def has_loose_bvars (e : Expr) : Bool := get_loose_bvar_range e != 0

/-- Modelled from the spec: `lift_loose_bvars(e, s, d)` of the expression
collaborator (not under src/): adds `d` to every loose bound-variable index
that is `>= s`.  The two-argument C++ form used by `instantiate` is the
`s = 0` case. -/
def lift_loose_bvars : Expr → Nat → Nat → Expr
  | .bvar i, s, d => if s ≤ i then .bvar (i + d) else .bvar i
  | .app f a, s, d => .app (lift_loose_bvars f s d) (lift_loose_bvars a s d)
  | .lam t b, s, d => .lam (lift_loose_bvars t s d) (lift_loose_bvars b (s + 1) d)
  | .const n ls, _, _ => .const n ls
  | .sort l, _, _ => .sort l

/-- Modelled from the spec: the offset-tracking `replace` of
kernel/replace_fn.h (not under src/), the "generic bottom-up rewrite that
tracks the cumulative binder offset crossed so far": the visitor is applied
at each node with the number of binders crossed; returning a value stops the
descent at that node, returning none recurses into the children. -/
def replace (f : Expr → Nat → Option Expr) : Expr → Nat → Expr
  | .bvar i, off =>
    match f (.bvar i) off with
    | some r => r
    | none => .bvar i
  | .app g a, off =>
    match f (.app g a) off with
    | some r => r
    | none => .app (replace f g off) (replace f a off)
  | .lam t b, off =>
    match f (.lam t b) off with
    | some r => r
    | none => .lam (replace f t off) (replace f b (off + 1))
  | .const n ls, off =>
    match f (.const n ls) off with
    | some r => r
    | none => .const n ls
  | .sort l, off =>
    match f (.sort l) off with
    | some r => r
    | none => .sort l

/-- The fast path `instantiate_easy_fn<rev>` (lambda_lifting.h lines 32-48):
returns the unchanged node when it has no loose bvars, substitutes a
bound-variable root directly, recursively fast-paths both positions of an
application, and otherwise gives no answer. -/
def instantiate_easy (rev : Bool) (n : Nat) (subst : List Expr) : Expr → Bool → Option Expr
  | a, app =>
    if has_loose_bvars a = false then some a
    else
      match a with
      | .bvar i =>
        if i < n then some (subst.getD (if rev then n - i - 1 else i) (.bvar 0)) else none
      | .app f x =>
        if app then
          match instantiate_easy rev n subst x false with
          | none => none
          | some new_a =>
            match instantiate_easy rev n subst f true with
            | none => none
            | some new_f => some (.app new_f new_a)
        else none
      | _ => none

/-- The visitor lambda of `instantiate`'s generic path (lambda_lifting.h
lines 56-74), named so that its behaviour can be reasoned about: prune when
the node's range does not reach `s + offset`, substitute a window index with
lifting, shift a higher index down by `n`.  The C++ unsigned-wraparound
guards (`s1 < s`, `h < s1`) cannot fire over exact `Nat` arithmetic and are
omitted. -/
def inst_fn (s n : Nat) (subst : List Expr) (m : Expr) (offset : Nat) : Option Expr :=
  if s + offset ≥ get_loose_bvar_range m then some m
  else
    match m with
    | .bvar vidx =>
      if vidx ≥ s + offset then
        if vidx < s + offset + n then
          some (lift_loose_bvars (subst.getD (vidx - (s + offset)) (.bvar 0)) 0 offset)
        else some (.bvar (vidx - n))
      else none
    | _ => none

/-- The general instantiation `instantiate(a, s, n, subst)` (lambda_lifting.h
lines 50-75): replaces loose indices in `[s, s+n)` by the corresponding
substitution term lifted by the crossed-binder offset, and shifts indices
`>= s+n` down by `n`. -/
def instantiate (a : Expr) (s n : Nat) (subst : List Expr) : Expr :=
  if s ≥ get_loose_bvar_range a ∨ n = 0 then a
  else
    match (if s = 0 then instantiate_easy false n subst a true else none) with
    | some r => r
    | none => replace (inst_fn s n subst) a 0

/-- The visitor lambda of `instantiate_rev`'s generic path (lambda_lifting.h
lines 87-102): as `inst_fn` at `s = 0` but indexing the substitution array
from the end. -/
def inst_rev_fn (n : Nat) (subst : List Expr) (m : Expr) (offset : Nat) : Option Expr :=
  if offset ≥ get_loose_bvar_range m then some m
  else
    match m with
    | .bvar vidx =>
      if vidx ≥ offset then
        if vidx < offset + n then
          some (lift_loose_bvars (subst.getD (n - (vidx - offset) - 1) (.bvar 0)) 0 offset)
        else some (.bvar (vidx - n))
      else none
    | _ => none

/-- The reversed instantiation `instantiate_rev(a, n, subst)`
(lambda_lifting.h lines 82-103). -/
def instantiate_rev (a : Expr) (n : Nat) (subst : List Expr) : Expr :=
  if has_loose_bvars a = false then a
  else
    match instantiate_easy true n subst a true with
    | some r => r
    | none => replace (inst_rev_fn n subst) a 0

/-- Whether the root is a lambda. -/
def is_lambda : Expr → Bool
  | .lam _ _ => true
  | _ => false

/-- Whether the root is an application. -/
def is_app : Expr → Bool
  | .app _ _ => true
  | _ => false

/-- Body of a lambda (the argument itself on other shapes, never used so). -/
def binding_body : Expr → Expr
  | .lam _ b => b
  | e => e

/-- Head of an application spine. -/
def get_app_fn : Expr → Expr
  | .app f _ => get_app_fn f
  | e => e

/-- Modelled from the spec: `mk_rev_app(f, n, args)` of the expression
collaborator (not under src/): applies `args[n-1], ..., args[0]` to `f` in
that order (the array holds the argument spine in reverse). -/
def mk_rev_app : Expr → Nat → List Expr → Expr
  | f, 0, _ => f
  | f, k + 1, args => mk_rev_app (.app f (args.getD k (.bvar 0))) k args

/-- The peeling loop of `apply_beta` (lambda_lifting.h lines 115-119):
`while (is_lambda(binding_body(f)) && m < num_args) { f = binding_body(f);
m++; }`. -/
def peel_loop : Expr → Nat → Nat → Expr × Nat
  | .lam t b, m, num_args =>
    if is_lambda b = true ∧ m < num_args then peel_loop b (m + 1) num_args
    else (.lam t b, m)
  | f, m, _ => (f, m)

/-- Bulk beta application `apply_beta(f, num_args, args)` (lambda_lifting.h
lines 109-123): peels consecutive lambdas up to the number of available
arguments, performs one bulk `instantiate` over the peeled binders, and
reapplies the unconsumed arguments. -/
def apply_beta (f : Expr) (num_args : Nat) (args : List Expr) : Expr :=
  if num_args = 0 then f
  else if is_lambda f = false then mk_rev_app f num_args args
  else
    let p := peel_loop f 1 num_args
    mk_rev_app (instantiate (binding_body p.1) 0 p.2 (args.drop (num_args - p.2)))
      (num_args - p.2) args

/-- Whether the head position is a redex (lambda_lifting.h lines 105-107). -/
def is_head_beta (t : Expr) : Bool := is_app t && is_lambda (get_app_fn t)

/-- Modelled from the spec: `get_app_rev_args` of the expression collaborator
(not under src/): collects the application spine's arguments in reverse order
(outermost argument first) and returns the head. -/
def get_app_rev_args : Expr → List Expr → Expr × List Expr
  | .app f a, acc => get_app_rev_args f (acc ++ [a])
  | e, acc => (e, acc)

/-- One iteration of `head_beta_reduce`'s body: collect the reversed spine
and apply `apply_beta` to the head. -/
def head_beta_step (t : Expr) : Expr :=
  let p := get_app_rev_args t []
  apply_beta p.1 p.2.length p.2

/-- The head beta-reduction loop `head_beta_reduce(t)` (lambda_lifting.h
lines 125-134), embedded with explicit fuel because the C++ recursion is not
structurally decreasing: `none` means the given number of iterations did not
reach a non-redex head. -/
def head_beta_reduce_fuel : Nat → Expr → Option Expr
  | 0, t => if is_head_beta t = false then some t else none
  | fuel + 1, t =>
    if is_head_beta t = false then some t
    else head_beta_reduce_fuel fuel (head_beta_step t)

/-- An `n = 0` instantiation is the identity (guard on the first line). -/
theorem instantiate_zero (t : Expr) (s : Nat) (subst : List Expr) :
    instantiate t s 0 subst = t := by
  unfold instantiate
  rw [if_pos (Or.inr rfl)]

/-- C5: `instantiate(t, s, n, subst)` returns `t` itself whenever `t`'s
loose-bvar range is at most `s`, and likewise whenever `n = 0`, for every
substitution array: the guard on the first line of `instantiate` returns the
input without traversal in both cases. -/
theorem instantiate_noop (t : Expr) (s n : Nat) (subst : List Expr) :
    (get_loose_bvar_range t ≤ s → instantiate t s n subst = t) ∧
    (n = 0 → instantiate t s n subst = t) := by
  constructor
  · intro h
    unfold instantiate
    rw [if_pos (Or.inl h)]
  · intro h
    unfold instantiate
    rw [if_pos (Or.inr h)]

/-- Sample closed constant used by concrete scenarios. -/
def cA : Expr := .const "a" []

/-- Second sample closed constant. -/
def cB : Expr := .const "b" []

theorem instantiate_noop_witness :
    (get_loose_bvar_range (.lam (.sort .zero) (.bvar 0)) ≤ 0 ∧
      instantiate (.lam (.sort .zero) (.bvar 0)) 0 2 [cA, cB]
        = .lam (.sort .zero) (.bvar 0)) ∧
    instantiate (.app (.bvar 4) (.bvar 7)) 2 0 [] = .app (.bvar 4) (.bvar 7) :=
  ⟨⟨by decide, (instantiate_noop (.lam (.sort .zero) (.bvar 0)) 0 2 [cA, cB]).1 (by decide)⟩,
   (instantiate_noop (.app (.bvar 4) (.bvar 7)) 2 0 []).2 rfl⟩

/-- Reference substitution used to relate the engine's several code paths
(fast path, generic rewrite, reversed variant): at carried binder depth `d`
it keeps indices below `s + d`, maps an index in the window `[s+d, s+d+n)`
to the corresponding substitution entry lifted by `d`, and shifts larger
indices down by `n`. -/
def subst_ref (n : Nat) (subst : List Expr) (s : Nat) : Expr → Nat → Expr
  | .bvar i, d =>
    if i < s + d then .bvar i
    else if i < s + d + n then lift_loose_bvars (subst.getD (i - (s + d)) (.bvar 0)) 0 d
    else .bvar (i - n)
  | .app f a, d => .app (subst_ref n subst s f d) (subst_ref n subst s a d)
  | .lam t b, d => .lam (subst_ref n subst s t d) (subst_ref n subst s b (d + 1))
  | .const nm ls, _ => .const nm ls
  | .sort l, _ => .sort l

/-- Lifting by 0 is the identity. -/
theorem lift_loose_bvars_zero (e : Expr) : ∀ s : Nat, lift_loose_bvars e s 0 = e := by
  induction e with
  | bvar i => intro s; unfold lift_loose_bvars; split <;> rfl
  | app f a ihf iha => intro s; unfold lift_loose_bvars; rw [ihf, iha]
  | lam t b iht ihb => intro s; unfold lift_loose_bvars; rw [iht, ihb]
  | const n ls => intro s; rfl
  | sort l => intro s; rfl

/-- A subtree whose range does not reach the window start is unchanged by
the reference substitution. -/
theorem subst_ref_id (n : Nat) (subst : List Expr) (s : Nat) (a : Expr) :
    ∀ d : Nat, get_loose_bvar_range a ≤ s + d → subst_ref n subst s a d = a := by
  induction a with
  | bvar i =>
    intro d h
    unfold get_loose_bvar_range at h
    unfold subst_ref
    rw [if_pos (by omega)]
  | app f a ihf iha =>
    intro d h
    unfold get_loose_bvar_range at h
    unfold subst_ref
    rw [ihf d (by omega), iha d (by omega)]
  | lam t b iht ihb =>
    intro d h
    unfold get_loose_bvar_range at h
    unfold subst_ref
    rw [iht d (by omega), ihb (d + 1) (by omega)]
  | const nm ls => intro d h; rfl
  | sort l => intro d h; rfl

/-- With an empty window the reference substitution is the identity. -/
theorem subst_ref_n0 (subst : List Expr) (s : Nat) (a : Expr) :
    ∀ d : Nat, subst_ref 0 subst s a d = a := by
  induction a with
  | bvar i =>
    intro d
    unfold subst_ref
    split
    · rfl
    · next h =>
      rw [if_neg (by omega)]
      simp
  | app f a ihf iha => intro d; unfold subst_ref; rw [ihf, iha]
  | lam t b iht ihb => intro d; unfold subst_ref; rw [iht, ihb]
  | const nm ls => intro d; rfl
  | sort l => intro d; rfl

/-- The flag being false means the range is zero. -/
theorem has_loose_bvars_false {a : Expr} (h : has_loose_bvars a = false) :
    get_loose_bvar_range a = 0 := by
  unfold has_loose_bvars at h
  simpa using h

/-- Indexing a reversed list from the front. -/
theorem getD_reverse (l : List Expr) (i : Nat) (h : i < l.length) (dflt : Expr) :
    l.reverse.getD i dflt = l.getD (l.length - 1 - i) dflt := by
  rw [List.getD_eq_getElem?_getD, List.getD_eq_getElem?_getD]
  rw [List.getElem?_reverse (by simpa using h)]

/-- The fast path answers `some a` itself when the node has no loose bvars;
its other answers come from the specific shapes below. -/
theorem instantiate_easy_fwd (n : Nat) (subst : List Expr) :
    ∀ (a : Expr) (flag : Bool) (r : Expr),
      instantiate_easy false n subst a flag = some r → r = subst_ref n subst 0 a 0 := by
  intro a
  induction a with
  | bvar i =>
    intro flag r h
    rw [show instantiate_easy false n subst (.bvar i) flag
        = (if has_loose_bvars (.bvar i) = false then some (.bvar i)
           else if i < n then some (subst.getD i (.bvar 0)) else none) from rfl] at h
    split at h
    · next hl =>
      injection h with h
      rw [← h]
      refine (subst_ref_id n subst 0 _ 0 ?_).symm
      have h0 := has_loose_bvars_false hl
      omega
    · split at h
      · next hin =>
        injection h with h
        rw [← h]
        unfold subst_ref
        rw [if_neg (by omega), if_pos (by omega)]
        rw [lift_loose_bvars_zero]
        simp
      · exact absurd h (by simp)
  | app f x ihf ihx =>
    intro flag r h
    rw [show instantiate_easy false n subst (.app f x) flag
        = (if has_loose_bvars (.app f x) = false then some (.app f x)
           else if flag then
             match instantiate_easy false n subst x false with
             | none => none
             | some new_a =>
               match instantiate_easy false n subst f true with
               | none => none
               | some new_f => some (.app new_f new_a)
           else none) from rfl] at h
    split at h
    · next hl =>
      injection h with h
      rw [← h]
      refine (subst_ref_id n subst 0 _ 0 ?_).symm
      have h0 := has_loose_bvars_false hl
      omega
    · split at h
      · cases hx1 : instantiate_easy false n subst x false with
        | none => rw [hx1] at h; exact absurd h (by simp)
        | some na =>
          rw [hx1] at h
          cases hf1 : instantiate_easy false n subst f true with
          | none => rw [hf1] at h; exact absurd h (by simp)
          | some nf =>
            rw [hf1] at h
            injection h with h
            rw [← h]
            unfold subst_ref
            rw [← ihf true nf hf1, ← ihx false na hx1]
      · exact absurd h (by simp)
  | lam t b iht ihb =>
    intro flag r h
    rw [show instantiate_easy false n subst (.lam t b) flag
        = (if has_loose_bvars (.lam t b) = false then some (.lam t b) else none) from rfl] at h
    split at h
    · next hl =>
      injection h with h
      rw [← h]
      refine (subst_ref_id n subst 0 _ 0 ?_).symm
      have h0 := has_loose_bvars_false hl
      omega
    · exact absurd h (by simp)
  | const nm ls =>
    intro flag r h
    rw [show instantiate_easy false n subst (.const nm ls) flag
        = some (.const nm ls) from rfl] at h
    injection h with h
    rw [← h]
    rfl
  | sort l =>
    intro flag r h
    rw [show instantiate_easy false n subst (.sort l) flag
        = some (.sort l) from rfl] at h
    injection h with h
    rw [← h]
    rfl

/-- The reversed fast path agrees with the reference substitution over the
reversed array whenever it produces an answer. -/
theorem instantiate_easy_rev (n : Nat) (subst : List Expr) (hlen : subst.length = n) :
    ∀ (a : Expr) (flag : Bool) (r : Expr),
      instantiate_easy true n subst a flag = some r → r = subst_ref n subst.reverse 0 a 0 := by
  intro a
  induction a with
  | bvar i =>
    intro flag r h
    rw [show instantiate_easy true n subst (.bvar i) flag
        = (if has_loose_bvars (.bvar i) = false then some (.bvar i)
           else if i < n then some (subst.getD (n - i - 1) (.bvar 0)) else none) from rfl] at h
    split at h
    · next hl =>
      injection h with h
      rw [← h]
      refine (subst_ref_id n subst.reverse 0 _ 0 ?_).symm
      have h0 := has_loose_bvars_false hl
      omega
    · split at h
      · next hin =>
        injection h with h
        rw [← h]
        unfold subst_ref
        rw [if_neg (by omega), if_pos (by omega)]
        rw [lift_loose_bvars_zero]
        show subst.getD (n - i - 1) (.bvar 0) = subst.reverse.getD i (.bvar 0)
        rw [getD_reverse subst i (by omega) (.bvar 0), hlen]
        congr 1
        omega
      · exact absurd h (by simp)
  | app f x ihf ihx =>
    intro flag r h
    rw [show instantiate_easy true n subst (.app f x) flag
        = (if has_loose_bvars (.app f x) = false then some (.app f x)
           else if flag then
             match instantiate_easy true n subst x false with
             | none => none
             | some new_a =>
               match instantiate_easy true n subst f true with
               | none => none
               | some new_f => some (.app new_f new_a)
           else none) from rfl] at h
    split at h
    · next hl =>
      injection h with h
      rw [← h]
      refine (subst_ref_id n subst.reverse 0 _ 0 ?_).symm
      have h0 := has_loose_bvars_false hl
      omega
    · split at h
      · cases hx1 : instantiate_easy true n subst x false with
        | none => rw [hx1] at h; exact absurd h (by simp)
        | some na =>
          rw [hx1] at h
          cases hf1 : instantiate_easy true n subst f true with
          | none => rw [hf1] at h; exact absurd h (by simp)
          | some nf =>
            rw [hf1] at h
            injection h with h
            rw [← h]
            unfold subst_ref
            rw [← ihf true nf hf1, ← ihx false na hx1]
      · exact absurd h (by simp)
  | lam t b iht ihb =>
    intro flag r h
    rw [show instantiate_easy true n subst (.lam t b) flag
        = (if has_loose_bvars (.lam t b) = false then some (.lam t b) else none) from rfl] at h
    split at h
    · next hl =>
      injection h with h
      rw [← h]
      refine (subst_ref_id n subst.reverse 0 _ 0 ?_).symm
      have h0 := has_loose_bvars_false hl
      omega
    · exact absurd h (by simp)
  | const nm ls =>
    intro flag r h
    rw [show instantiate_easy true n subst (.const nm ls) flag
        = some (.const nm ls) from rfl] at h
    injection h with h
    rw [← h]
    rfl
  | sort l =>
    intro flag r h
    rw [show instantiate_easy true n subst (.sort l) flag
        = some (.sort l) from rfl] at h
    injection h with h
    rw [← h]
    rfl

/-- `replace` uses the callback's answer without descending. -/
theorem replace_some {f : Expr → Nat → Option Expr} {a : Expr} {d : Nat} {r : Expr}
    (h : f a d = some r) : replace f a d = r := by
  cases a <;> (unfold replace; rw [h])

/-- `replace` descends into both positions of an unanswered application. -/
theorem replace_none_app {f : Expr → Nat → Option Expr} {g a : Expr} {d : Nat}
    (h : f (.app g a) d = none) :
    replace f (.app g a) d = .app (replace f g d) (replace f a d) := by
  show (match f (.app g a) d with
        | some r => r
        | none => .app (replace f g d) (replace f a d)) = _
  rw [h]

/-- `replace` descends into an unanswered lambda, bumping the offset in the
body. -/
theorem replace_none_lam {f : Expr → Nat → Option Expr} {t b : Expr} {d : Nat}
    (h : f (.lam t b) d = none) :
    replace f (.lam t b) d = .lam (replace f t d) (replace f b (d + 1)) := by
  show (match f (.lam t b) d with
        | some r => r
        | none => .lam (replace f t d) (replace f b (d + 1))) = _
  rw [h]

/-- The generic visitor prunes a node whose range the window start exceeds. -/
theorem inst_fn_prune {s n : Nat} {subst : List Expr} {m : Expr} {offset : Nat}
    (h : get_loose_bvar_range m ≤ s + offset) :
    inst_fn s n subst m offset = some m := by
  unfold inst_fn
  exact if_pos h

/-- The generic visitor substitutes a window index. -/
theorem inst_fn_bvar_sub {s n : Nat} {subst : List Expr} {i d : Nat}
    (h1 : s + d < i + 1) (h2 : i < s + d + n) :
    inst_fn s n subst (.bvar i) d
      = some (lift_loose_bvars (subst.getD (i - (s + d)) (.bvar 0)) 0 d) := by
  show (if s + d ≥ i + 1 then some (.bvar i)
        else if i ≥ s + d then
          if i < s + d + n then
            some (lift_loose_bvars (subst.getD (i - (s + d)) (.bvar 0)) 0 d)
          else some (.bvar (i - n))
        else none) = _
  rw [if_neg (by omega), if_pos (by omega), if_pos h2]

/-- The generic visitor shifts an index above the window down by `n`. -/
theorem inst_fn_bvar_shift {s n : Nat} {subst : List Expr} {i d : Nat}
    (h1 : s + d < i + 1) (h2 : ¬i < s + d + n) :
    inst_fn s n subst (.bvar i) d = some (.bvar (i - n)) := by
  show (if s + d ≥ i + 1 then some (.bvar i)
        else if i ≥ s + d then
          if i < s + d + n then
            some (lift_loose_bvars (subst.getD (i - (s + d)) (.bvar 0)) 0 d)
          else some (.bvar (i - n))
        else none) = _
  rw [if_neg (by omega), if_pos (by omega), if_neg h2]

/-- The generic visitor gives no answer on an unpruned application. -/
theorem inst_fn_none_app {s n : Nat} {subst : List Expr} {g a : Expr} {d : Nat}
    (h : s + d < get_loose_bvar_range (.app g a)) :
    inst_fn s n subst (.app g a) d = none := by
  show (if s + d ≥ get_loose_bvar_range (Expr.app g a) then some (Expr.app g a) else none)
      = none
  rw [if_neg (by omega)]

/-- The generic visitor gives no answer on an unpruned lambda. -/
theorem inst_fn_none_lam {s n : Nat} {subst : List Expr} {t b : Expr} {d : Nat}
    (h : s + d < get_loose_bvar_range (.lam t b)) :
    inst_fn s n subst (.lam t b) d = none := by
  show (if s + d ≥ get_loose_bvar_range (Expr.lam t b) then some (Expr.lam t b) else none)
      = none
  rw [if_neg (by omega)]

/-- The generic rewrite path of `instantiate` computes the reference
substitution. -/
theorem replace_inst_fn (s n : Nat) (subst : List Expr) :
    ∀ (a : Expr) (d : Nat), replace (inst_fn s n subst) a d = subst_ref n subst s a d := by
  intro a
  induction a with
  | bvar i =>
    intro d
    by_cases h1 : i + 1 ≤ s + d
    · rw [replace_some (inst_fn_prune (show get_loose_bvar_range (.bvar i) ≤ s + d from h1))]
      unfold subst_ref
      rw [if_pos (by omega)]
    · by_cases h2 : i < s + d + n
      · rw [replace_some (inst_fn_bvar_sub (by omega) h2)]
        unfold subst_ref
        rw [if_neg (by omega), if_pos (by omega)]
      · rw [replace_some (inst_fn_bvar_shift (by omega) h2)]
        unfold subst_ref
        rw [if_neg (by omega), if_neg (by omega)]
  | app g a ihg iha =>
    intro d
    by_cases h1 : get_loose_bvar_range (.app g a) ≤ s + d
    · rw [replace_some (inst_fn_prune h1)]
      exact (subst_ref_id n subst s _ d h1).symm
    · rw [replace_none_app (inst_fn_none_app (by omega))]
      unfold subst_ref
      rw [ihg d, iha d]
  | lam t b iht ihb =>
    intro d
    by_cases h1 : get_loose_bvar_range (.lam t b) ≤ s + d
    · rw [replace_some (inst_fn_prune h1)]
      exact (subst_ref_id n subst s _ d h1).symm
    · rw [replace_none_lam (inst_fn_none_lam (by omega))]
      unfold subst_ref
      rw [iht d, ihb (d + 1)]
  | const nm ls =>
    intro d
    rw [replace_some (inst_fn_prune (show get_loose_bvar_range (.const nm ls) ≤ s + d from
      by simp [get_loose_bvar_range]))]
    rfl
  | sort l =>
    intro d
    rw [replace_some (inst_fn_prune (show get_loose_bvar_range (.sort l) ≤ s + d from
      by simp [get_loose_bvar_range]))]
    rfl

/-- `instantiate` computes the reference substitution. -/
theorem instantiate_eq_ref (a : Expr) (s n : Nat) (subst : List Expr) :
    instantiate a s n subst = subst_ref n subst s a 0 := by
  unfold instantiate
  split
  · next h =>
    rcases h with h | h
    · exact (subst_ref_id n subst s a 0 h).symm
    · rw [h]
      exact (subst_ref_n0 subst s a 0).symm
  · by_cases hs : s = 0
    · subst hs
      rw [if_pos rfl]
      cases heasy : instantiate_easy false n subst a true with
      | some r => exact instantiate_easy_fwd n subst a true r heasy
      | none => exact replace_inst_fn 0 n subst a 0
    · rw [if_neg hs]
      exact replace_inst_fn s n subst a 0

/-- The reversed visitor prunes a node whose range the offset exceeds. -/
theorem inst_rev_fn_prune {n : Nat} {subst : List Expr} {m : Expr} {offset : Nat}
    (h : get_loose_bvar_range m ≤ offset) :
    inst_rev_fn n subst m offset = some m := by
  unfold inst_rev_fn
  exact if_pos h

/-- The reversed visitor substitutes a window index from the array's end. -/
theorem inst_rev_fn_bvar_sub {n : Nat} {subst : List Expr} {i d : Nat}
    (h1 : d < i + 1) (h2 : i < d + n) :
    inst_rev_fn n subst (.bvar i) d
      = some (lift_loose_bvars (subst.getD (n - (i - d) - 1) (.bvar 0)) 0 d) := by
  show (if d ≥ i + 1 then some (Expr.bvar i)
        else if i ≥ d then
          if i < d + n then
            some (lift_loose_bvars (subst.getD (n - (i - d) - 1) (.bvar 0)) 0 d)
          else some (Expr.bvar (i - n))
        else none) = _
  rw [if_neg (by omega), if_pos (by omega), if_pos h2]

/-- The reversed visitor shifts an index above the window down by `n`. -/
theorem inst_rev_fn_bvar_shift {n : Nat} {subst : List Expr} {i d : Nat}
    (h1 : d < i + 1) (h2 : ¬i < d + n) :
    inst_rev_fn n subst (.bvar i) d = some (.bvar (i - n)) := by
  show (if d ≥ i + 1 then some (Expr.bvar i)
        else if i ≥ d then
          if i < d + n then
            some (lift_loose_bvars (subst.getD (n - (i - d) - 1) (.bvar 0)) 0 d)
          else some (Expr.bvar (i - n))
        else none) = _
  rw [if_neg (by omega), if_pos (by omega), if_neg h2]

/-- The reversed visitor gives no answer on an unpruned application. -/
theorem inst_rev_fn_none_app {n : Nat} {subst : List Expr} {g a : Expr} {d : Nat}
    (h : d < get_loose_bvar_range (.app g a)) :
    inst_rev_fn n subst (.app g a) d = none := by
  show (if d ≥ get_loose_bvar_range (Expr.app g a) then some (Expr.app g a) else none) = none
  rw [if_neg (by omega)]

/-- The reversed visitor gives no answer on an unpruned lambda. -/
theorem inst_rev_fn_none_lam {n : Nat} {subst : List Expr} {t b : Expr} {d : Nat}
    (h : d < get_loose_bvar_range (.lam t b)) :
    inst_rev_fn n subst (.lam t b) d = none := by
  show (if d ≥ get_loose_bvar_range (Expr.lam t b) then some (Expr.lam t b) else none) = none
  rw [if_neg (by omega)]

/-- The generic rewrite path of `instantiate_rev` computes the reference
substitution over the reversed array. -/
theorem replace_inst_rev_fn (n : Nat) (subst : List Expr) (hlen : subst.length = n) :
    ∀ (a : Expr) (d : Nat),
      replace (inst_rev_fn n subst) a d = subst_ref n subst.reverse 0 a d := by
  intro a
  induction a with
  | bvar i =>
    intro d
    by_cases h1 : i + 1 ≤ d
    · rw [replace_some (inst_rev_fn_prune (show get_loose_bvar_range (.bvar i) ≤ d from h1))]
      unfold subst_ref
      rw [if_pos (by omega)]
    · by_cases h2 : i < d + n
      · rw [replace_some (inst_rev_fn_bvar_sub (by omega) h2)]
        unfold subst_ref
        rw [if_neg (by omega), if_pos (by omega)]
        congr 1
        show subst.getD (n - (i - d) - 1) (.bvar 0) = subst.reverse.getD (i - (0 + d)) (.bvar 0)
        rw [show i - (0 + d) = i - d from by omega]
        rw [getD_reverse subst (i - d) (by omega) (.bvar 0), hlen]
        congr 1
        omega
      · rw [replace_some (inst_rev_fn_bvar_shift (by omega) h2)]
        unfold subst_ref
        rw [if_neg (by omega), if_neg (by omega)]
  | app g a ihg iha =>
    intro d
    by_cases h1 : get_loose_bvar_range (.app g a) ≤ d
    · rw [replace_some (inst_rev_fn_prune h1)]
      exact (subst_ref_id n subst.reverse 0 _ d (by omega)).symm
    · rw [replace_none_app (inst_rev_fn_none_app (by omega))]
      unfold subst_ref
      rw [ihg d, iha d]
  | lam t b iht ihb =>
    intro d
    by_cases h1 : get_loose_bvar_range (.lam t b) ≤ d
    · rw [replace_some (inst_rev_fn_prune h1)]
      exact (subst_ref_id n subst.reverse 0 _ d (by omega)).symm
    · rw [replace_none_lam (inst_rev_fn_none_lam (by omega))]
      unfold subst_ref
      rw [iht d, ihb (d + 1)]
  | const nm ls =>
    intro d
    rw [replace_some (inst_rev_fn_prune (show get_loose_bvar_range (.const nm ls) ≤ d from
      by simp [get_loose_bvar_range]))]
    rfl
  | sort l =>
    intro d
    rw [replace_some (inst_rev_fn_prune (show get_loose_bvar_range (.sort l) ≤ d from
      by simp [get_loose_bvar_range]))]
    rfl

/-- `instantiate_rev` computes the reference substitution over the reversed
array. -/
theorem instantiate_rev_eq_ref (a : Expr) (n : Nat) (subst : List Expr)
    (hlen : subst.length = n) :
    instantiate_rev a n subst = subst_ref n subst.reverse 0 a 0 := by
  unfold instantiate_rev
  split
  · next h =>
    refine (subst_ref_id n subst.reverse 0 a 0 ?_).symm
    have h0 := has_loose_bvars_false h
    omega
  · cases heasy : instantiate_easy true n subst a true with
    | some r => exact instantiate_easy_rev n subst hlen a true r heasy
    | none => exact replace_inst_rev_fn n subst hlen a 0

/-- C6: for every term `t` with loose-bvar range at most `n` and every
substitution array of length `n`, `instantiate_rev(t, n, subst)` returns the
same term as `instantiate(t, 0, n, reverse(subst))`: both compute the
substitution that maps loose index `i < n` to `subst[n-i-1] =
reverse(subst)[i]`. -/
theorem instantiate_rev_reversal (t : Expr) (n : Nat) (subst : List Expr)
    (_hrange : get_loose_bvar_range t ≤ n) (hlen : subst.length = n) :
    instantiate_rev t n subst = instantiate t 0 n subst.reverse := by
  rw [instantiate_rev_eq_ref t n subst hlen, instantiate_eq_ref t 0 n subst.reverse]

theorem instantiate_rev_reversal_witness :
    (get_loose_bvar_range (.bvar 0) ≤ 2 ∧ ([cA, cB] : List Expr).length = 2 ∧
      instantiate_rev (.bvar 0) 2 [cA, cB] = instantiate (.bvar 0) 0 2 (List.reverse [cA, cB])) ∧
    instantiate (.bvar 0) 0 2 [cA, cB] = cA ∧
    instantiate (.bvar 1) 0 2 [cA, cB] = cB ∧
    instantiate_rev (.bvar 0) 2 [cA, cB] = cB ∧
    instantiate_rev (.bvar 1) 2 [cA, cB] = cA :=
  ⟨⟨by decide, rfl, instantiate_rev_reversal (.bvar 0) 2 [cA, cB] (by decide) rfl⟩,
   rfl, rfl, rfl, rfl⟩

/-- Number of leading nested lambdas of a term. -/
def leadingLambdas : Expr → Nat
  | .lam _ b => leadingLambdas b + 1
  | _ => 0

/-- Wrap a body in lambdas with the given domain types (outermost first). -/
def wrap : List Expr → Expr → Expr
  | [], b => b
  | t :: ts, b => .lam t (wrap ts b)

/-- Naive one-argument-at-a-time beta reduction, following the claim's words
("peel one lambda, instantiate its body with one argument, repeat, with
unconsumed arguments reapplied to the result"): the iteration keeps going as
long as the current head is a lambda and arguments remain — including into
lambdas produced by the substitution itself. -/
def naive_beta : Expr → Nat → List Expr → Expr
  | .lam _ b, Nat.succ k, args =>
    naive_beta (instantiate b 0 1 [args.getD k (.bvar 0)]) k args
  | f, n, args => mk_rev_app f n args

/-- Naive one-argument-at-a-time beta reduction capped at a given number of
single steps (the spec-side reference for the amended bulk-equivalence:
`apply_beta` peels only the original leading lambdas, so the iterated
reference must stop after that many single steps and reapply the remaining
arguments). -/
def naive_beta_n : Nat → Expr → Nat → List Expr → Expr
  | 0, f, n, args => mk_rev_app f n args
  | j + 1, f, n, args =>
    match f, n with
    | .lam _ b, Nat.succ k =>
      naive_beta_n j (instantiate b 0 1 [args.getD k (.bvar 0)]) k args
    | f, n => mk_rev_app f n args

/-- Every term is a lambda prefix wrapped around a non-lambda core. -/
theorem leading_decomp (f : Expr) :
    ∃ ts b, f = wrap ts b ∧ ts.length = leadingLambdas f ∧ is_lambda b = false := by
  induction f with
  | bvar i => exact ⟨[], .bvar i, rfl, rfl, rfl⟩
  | app g a _ _ => exact ⟨[], .app g a, rfl, rfl, rfl⟩
  | lam t b _ ihb =>
    obtain ⟨ts, c, h1, h2, h3⟩ := ihb
    refine ⟨t :: ts, c, ?_, ?_, h3⟩
    · rw [show wrap (t :: ts) c = .lam t (wrap ts c) from rfl, ← h1]
    · show ts.length + 1 = leadingLambdas (.lam t b)
      rw [show leadingLambdas (.lam t b) = leadingLambdas b + 1 from rfl, ← h2]
  | const n ls => exact ⟨[], .const n ls, rfl, rfl, rfl⟩
  | sort l => exact ⟨[], .sort l, rfl, rfl, rfl⟩

/-- The leading-lambda count of a wrapped non-lambda core. -/
theorem leadingLambdas_wrap (b : Expr) (hb : is_lambda b = false) :
    ∀ ts : List Expr, leadingLambdas (wrap ts b) = ts.length := by
  intro ts
  induction ts with
  | nil =>
    show leadingLambdas b = 0
    cases b <;> first | rfl | exact absurd hb (by simp [is_lambda])
  | cons t ts ih =>
    show leadingLambdas (.lam t (wrap ts b)) = ts.length + 1
    rw [show leadingLambdas (.lam t (wrap ts b)) = leadingLambdas (wrap ts b) + 1 from rfl, ih]

/-- The peeling loop walks exactly the wrapped prefix (stopping at the
non-lambda core) when enough arguments are available, ending on the last
lambda with the core as its body. -/
theorem peel_loop_wrap (b : Expr) (hb : is_lambda b = false) :
    ∀ (ts : List Expr) (t : Expr) (m num : Nat), m + ts.length ≤ num →
      binding_body (peel_loop (wrap (t :: ts) b) m num).1 = b ∧
      (peel_loop (wrap (t :: ts) b) m num).2 = m + ts.length := by
  intro ts
  induction ts with
  | nil =>
    intro t m num _
    show binding_body (peel_loop (.lam t b) m num).1 = b ∧ (peel_loop (.lam t b) m num).2 = m
    rw [show peel_loop (.lam t b) m num
        = (if is_lambda b = true ∧ m < num then peel_loop b (m + 1) num
           else (.lam t b, m)) from rfl]
    rw [if_neg (by rw [hb]; simp)]
    exact ⟨rfl, rfl⟩
  | cons t1 ts ih =>
    intro t m num hm
    show binding_body (peel_loop (.lam t (wrap (t1 :: ts) b)) m num).1 = b ∧
      (peel_loop (.lam t (wrap (t1 :: ts) b)) m num).2 = m + (ts.length + 1)
    rw [show peel_loop (.lam t (wrap (t1 :: ts) b)) m num
        = (if is_lambda (wrap (t1 :: ts) b) = true ∧ m < num
           then peel_loop (wrap (t1 :: ts) b) (m + 1) num
           else (.lam t (wrap (t1 :: ts) b), m)) from rfl]
    rw [if_pos ⟨rfl, by simp at hm; omega⟩]
    obtain ⟨h1, h2⟩ := ih t1 (m + 1) num (by simp at hm ⊢; omega)
    exact ⟨h1, by rw [h2]; omega⟩

/-- Characterization of `apply_beta` on a wrapped term with enough
arguments: all leading lambdas are peeled and one bulk instantiation over
the argument window is performed. -/
theorem apply_beta_wrap (b : Expr) (hb : is_lambda b = false)
    (ts : List Expr) (t : Expr) (args : List Expr)
    (hn : ts.length + 1 ≤ args.length) :
    apply_beta (wrap (t :: ts) b) args.length args
      = mk_rev_app
          (instantiate b 0 (ts.length + 1) (args.drop (args.length - (ts.length + 1))))
          (args.length - (ts.length + 1)) args := by
  obtain ⟨hpeel1, hpeel2⟩ := peel_loop_wrap b hb ts t 1 args.length (by omega)
  unfold apply_beta
  rw [if_neg (by omega)]
  rw [if_neg (by rw [show is_lambda (wrap (t :: ts) b) = true from rfl]; simp)]
  simp only
  rw [hpeel1, hpeel2]
  rw [show 1 + ts.length = ts.length + 1 from by omega]

/-- A term lifted above the whole substitution window is only shifted back
down: the window never hits it. -/
theorem subst_ref_lift (n : Nat) (σ : List Expr) (a : Expr) :
    ∀ (r d0 : Nat),
      subst_ref n σ 0 (lift_loose_bvars a r (n + d0)) (d0 + r) = lift_loose_bvars a r d0 := by
  induction a with
  | bvar i =>
    intro r d0
    by_cases hir : r ≤ i
    · rw [show lift_loose_bvars (.bvar i) r (n + d0) = .bvar (i + (n + d0)) from by
        unfold lift_loose_bvars; rw [if_pos hir]]
      rw [show lift_loose_bvars (.bvar i) r d0 = .bvar (i + d0) from by
        unfold lift_loose_bvars; rw [if_pos hir]]
      unfold subst_ref
      rw [if_neg (by omega), if_neg (by omega)]
      congr 1
      omega
    · rw [show lift_loose_bvars (.bvar i) r (n + d0) = .bvar i from by
        unfold lift_loose_bvars; rw [if_neg hir]]
      rw [show lift_loose_bvars (.bvar i) r d0 = .bvar i from by
        unfold lift_loose_bvars; rw [if_neg hir]]
      unfold subst_ref
      rw [if_pos (by omega)]
  | app g a ihg iha =>
    intro r d0
    show Expr.app (subst_ref n σ 0 (lift_loose_bvars g r (n + d0)) (d0 + r))
        (subst_ref n σ 0 (lift_loose_bvars a r (n + d0)) (d0 + r))
      = .app (lift_loose_bvars g r d0) (lift_loose_bvars a r d0)
    rw [ihg r d0, iha r d0]
  | lam t b iht ihb =>
    intro r d0
    show Expr.lam (subst_ref n σ 0 (lift_loose_bvars t r (n + d0)) (d0 + r))
        (subst_ref n σ 0 (lift_loose_bvars b (r + 1) (n + d0)) ((d0 + r) + 1))
      = .lam (lift_loose_bvars t r d0) (lift_loose_bvars b (r + 1) d0)
    rw [iht r d0]
    rw [show (d0 + r) + 1 = d0 + (r + 1) from by omega]
    rw [ihb (r + 1) d0]
  | const nm ls => intro r d0; rfl
  | sort l => intro r d0; rfl

/-- Sequential-vs-simultaneous substitution: substituting the single term
`a1` at window start `n` (at depth `n + d0`) and then the `n` terms of `σ`
equals one simultaneous substitution of the `n + 1` terms `σ ++ [a1]`. -/
theorem subst_ref_compose (n : Nat) (σ : List Expr) (a1 : Expr) (hlen : σ.length = n) :
    ∀ (b : Expr) (d0 : Nat),
      subst_ref n σ 0 (subst_ref 1 [a1] 0 b (n + d0)) d0
        = subst_ref (n + 1) (σ ++ [a1]) 0 b d0 := by
  intro b
  induction b with
  | bvar i =>
    intro d0
    by_cases h1 : i < d0
    · rw [show subst_ref 1 [a1] 0 (.bvar i) (n + d0) = .bvar i from by
        unfold subst_ref; rw [if_pos (by omega)]]
      unfold subst_ref
      rw [if_pos (by omega), if_pos (by omega)]
    · by_cases h2 : i < d0 + n
      · rw [show subst_ref 1 [a1] 0 (.bvar i) (n + d0) = .bvar i from by
          unfold subst_ref; rw [if_pos (by omega)]]
        unfold subst_ref
        rw [if_neg (by omega), if_pos (by omega), if_neg (by omega), if_pos (by omega)]
        congr 1
        rw [List.getD_eq_getElem?_getD, List.getD_eq_getElem?_getD]
        rw [List.getElem?_append]
        rw [if_pos (by omega)]
      · by_cases h3 : i = n + d0
        · rw [show subst_ref 1 [a1] 0 (.bvar i) (n + d0)
              = lift_loose_bvars ([a1].getD (i - (0 + (n + d0))) (.bvar 0)) 0 (n + d0) from by
            unfold subst_ref; rw [if_neg (by omega), if_pos (by omega)]]
          rw [show ([a1].getD (i - (0 + (n + d0))) (.bvar 0)) = a1 from by
            rw [show i - (0 + (n + d0)) = 0 from by omega]; rfl]
          have hls := subst_ref_lift n σ a1 0 d0
          rw [show d0 + 0 = d0 from by omega] at hls
          rw [hls]
          unfold subst_ref
          rw [if_neg (by omega), if_pos (by omega)]
          congr 1
          rw [show i - (0 + d0) = n from by omega]
          rw [List.getD_eq_getElem?_getD]
          rw [List.getElem?_append_right (by omega)]
          rw [hlen]
          rw [show n - n = 0 from by omega]
          rfl
        · rw [show subst_ref 1 [a1] 0 (.bvar i) (n + d0) = .bvar (i - 1) from by
            unfold subst_ref; rw [if_neg (by omega), if_neg (by omega)]]
          unfold subst_ref
          rw [if_neg (by omega), if_neg (by omega), if_neg (by omega), if_neg (by omega)]
          congr 1
          omega
  | app g a ihg iha =>
    intro d0
    show Expr.app (subst_ref n σ 0 (subst_ref 1 [a1] 0 g (n + d0)) d0)
        (subst_ref n σ 0 (subst_ref 1 [a1] 0 a (n + d0)) d0)
      = .app (subst_ref (n + 1) (σ ++ [a1]) 0 g d0) (subst_ref (n + 1) (σ ++ [a1]) 0 a d0)
    rw [ihg d0, iha d0]
  | lam t b iht ihb =>
    intro d0
    show Expr.lam (subst_ref n σ 0 (subst_ref 1 [a1] 0 t (n + d0)) d0)
        (subst_ref n σ 0 (subst_ref 1 [a1] 0 b ((n + d0) + 1)) (d0 + 1))
      = .lam (subst_ref (n + 1) (σ ++ [a1]) 0 t d0)
          (subst_ref (n + 1) (σ ++ [a1]) 0 b (d0 + 1))
    rw [iht d0]
    rw [show (n + d0) + 1 = n + (d0 + 1) from by omega]
    rw [ihb (d0 + 1)]
  | const nm ls => intro d0; rfl
  | sort l => intro d0; rfl

/-- The reference substitution distributes over a lambda prefix, acting on
the core at the prefix's depth. -/
theorem subst_ref_wrap (n : Nat) (σ : List Expr) (s : Nat) :
    ∀ (ts : List Expr) (b : Expr) (d : Nat),
      ∃ ts' : List Expr, ts'.length = ts.length ∧
        subst_ref n σ s (wrap ts b) d = wrap ts' (subst_ref n σ s b (d + ts.length)) := by
  intro ts
  induction ts with
  | nil =>
    intro b d
    exact ⟨[], rfl, rfl⟩
  | cons t ts ih =>
    intro b d
    obtain ⟨ts', hlen, heq⟩ := ih b (d + 1)
    refine ⟨subst_ref n σ s t d :: ts', by simp [hlen], ?_⟩
    show Expr.lam (subst_ref n σ s t d) (subst_ref n σ s (wrap ts b) (d + 1))
      = .lam (subst_ref n σ s t d) (wrap ts' (subst_ref n σ s b (d + (ts.length + 1))))
    rw [heq]
    rw [show d + 1 + ts.length = d + (ts.length + 1) from by omega]

/-- Capped naive beta over a lambda prefix equals one bulk instantiation of
the argument window, with the remaining arguments reapplied. -/
theorem naive_beta_n_wrap :
    ∀ (L : Nat) (ts : List Expr) (b : Expr) (n : Nat) (args : List Expr),
      ts.length = L → L ≤ n → n ≤ args.length →
      naive_beta_n L (wrap ts b) n args
        = mk_rev_app (instantiate b 0 L ((args.take n).drop (n - L))) (n - L) args := by
  intro L
  induction L with
  | zero =>
    intro ts b n args hts h1 h2
    rw [List.eq_nil_of_length_eq_zero hts]
    show mk_rev_app b n args
      = mk_rev_app (instantiate b 0 0 ((args.take n).drop (n - 0))) (n - 0) args
    rw [instantiate_zero b 0 ((args.take n).drop (n - 0))]
    rfl
  | succ L ih =>
    intro ts b n args hts h1 h2
    cases ts with
    | nil => exact absurd hts (by simp)
    | cons t ts1 =>
      cases n with
      | zero => omega
      | succ k =>
        have hts1 : ts1.length = L := by simpa using hts
        have hkargs : k < args.length := by omega
        rw [show naive_beta_n (L + 1) (wrap (t :: ts1) b) (k + 1) args
            = naive_beta_n L (instantiate (wrap ts1 b) 0 1 [args.getD k (.bvar 0)]) k args
          from rfl]
        rw [instantiate_eq_ref (wrap ts1 b) 0 1 [args.getD k (.bvar 0)]]
        obtain ⟨ts', hlen', heq⟩ := subst_ref_wrap 1 [args.getD k (.bvar 0)] 0 ts1 b 0
        rw [heq]
        rw [show (0 : Nat) + ts1.length = L from by omega]
        rw [ih ts' (subst_ref 1 [args.getD k (.bvar 0)] 0 b L) k args
          (by rw [hlen', hts1]) (by omega) (by omega)]
        rw [show k + 1 - (L + 1) = k - L from by omega]
        have hwin : (args.take (k + 1)).drop (k - L)
            = ((args.take k).drop (k - L)) ++ [args.getD k (.bvar 0)] := by
          rw [List.take_succ]
          rw [List.getElem?_eq_getElem hkargs]
          rw [List.getD_eq_getElem args (.bvar 0) hkargs]
          rw [List.drop_append_eq_append_drop]
          rw [show k - L - (args.take k).length = 0 from by
            rw [List.length_take]; omega]
          rfl
        rw [hwin]
        have hσlen : ((args.take k).drop (k - L)).length = L := by
          rw [List.length_drop, List.length_take]
          omega
        rw [instantiate_eq_ref b 0 (L + 1) _]
        rw [instantiate_eq_ref (subst_ref 1 [args.getD k (.bvar 0)] 0 b L) 0 L _]
        have hc := subst_ref_compose L ((args.take k).drop (k - L))
          (args.getD k (.bvar 0)) hσlen b 0
        rw [show L + 0 = L from rfl] at hc
        rw [hc]

/-- C7 (amended): `apply_beta(f, |args|, args)` produces the same term as
peeling the leading lambdas of `f` one at a time — one single-argument
instantiation per original leading lambda — and reapplying the remaining
arguments, whenever the number of leading lambdas is at most `|args|`.  (The
one-at-a-time reference must not continue into lambdas produced by the
substitution itself; see the counterexample for the uncapped reading.) -/
theorem apply_beta_naive (f : Expr) (args : List Expr)
    (h : leadingLambdas f ≤ args.length) :
    apply_beta f args.length args = naive_beta_n (leadingLambdas f) f args.length args := by
  obtain ⟨ts, b, hf, hlen, hb⟩ := leading_decomp f
  subst hf
  rw [← hlen] at h ⊢
  cases ts with
  | nil =>
    show apply_beta b args.length args = naive_beta_n 0 b args.length args
    rw [show naive_beta_n 0 b args.length args = mk_rev_app b args.length args from rfl]
    unfold apply_beta
    by_cases hn : args.length = 0
    · rw [if_pos hn, hn]
      rfl
    · rw [if_neg hn, if_pos hb]
  | cons t ts1 =>
    have hargs : ts1.length + 1 ≤ args.length := by
      simp only [List.length_cons] at h
      omega
    rw [apply_beta_wrap b hb ts1 t args hargs]
    rw [naive_beta_n_wrap (t :: ts1).length (t :: ts1) b args.length args rfl
      (by simpa using hargs) (le_refl _)]
    rw [List.take_length]
    rfl

/-- The two-lambda sample used by the C7 witness. -/
def f2c : Expr := .lam (.sort .zero) (.lam (.sort .zero) (.bvar 1))

/-- Closed constant used by the beta scenarios. -/
def cC : Expr := .const "c" []

theorem apply_beta_naive_witness :
    leadingLambdas f2c ≤ 2 ∧
    apply_beta f2c 2 [cC, .bvar 0] = naive_beta_n (leadingLambdas f2c) f2c 2 [cC, .bvar 0] ∧
    apply_beta f2c 2 [cC, .bvar 0] = .bvar 0 :=
  ⟨by decide, apply_beta_naive f2c [cC, .bvar 0] (by decide), rfl⟩

/-- C7: counterexample to the claim as stated.  For `f = λx. x` applied to
the two arguments `id` and `c` (leading-lambda count 1 ≤ 2), `apply_beta`
consumes one argument and reapplies the other, returning the redex
`(λy. y) c`; naive one-argument-at-a-time reduction as literally described
keeps reducing into the lambda produced by the substitution and returns
`c`.  The two results differ. -/
theorem apply_beta_naive_cex :
    leadingLambdas (.lam (.sort .zero) (.bvar 0)) ≤ 2 ∧
    apply_beta (.lam (.sort .zero) (.bvar 0)) 2 [cC, .lam (.sort .zero) (.bvar 0)]
      = .app (.lam (.sort .zero) (.bvar 0)) cC ∧
    naive_beta (.lam (.sort .zero) (.bvar 0)) 2 [cC, .lam (.sort .zero) (.bvar 0)] = cC ∧
    Expr.app (.lam (.sort .zero) (.bvar 0)) cC ≠ cC := by
  refine ⟨by decide, rfl, rfl, by decide⟩

/-- The self-application lambda of the Omega counterexample. -/
def deltaE : Expr := .lam (.sort .zero) (.app (.bvar 0) (.bvar 0))

/-- C9: counterexample to the claim as stated.  On `Omega = (λx. x x)(λx. x
x)` each `apply_beta` iteration returns the very same redex, so the loop of
`head_beta_reduce` never reaches a non-redex head: after 100 iterations
there is still no result.  `head_beta_reduce` does not terminate on every
term. -/
theorem head_beta_omega_cex :
    is_head_beta (.app deltaE deltaE) = true ∧
    head_beta_step (.app deltaE deltaE) = .app deltaE deltaE ∧
    head_beta_reduce_fuel 100 (.app deltaE deltaE) = none :=
  ⟨rfl, rfl, rfl⟩

/-- C9 (amended): `head_beta_reduce` need not terminate (see the Omega
counterexample), but whenever the iteration does stop, the result's head is
no longer a redex; concretely, `(λx. x) a` reduces to `a` in one step. -/
theorem head_beta_fuel_sound :
    (∀ (fuel : Nat) (t r : Expr),
      head_beta_reduce_fuel fuel t = some r → is_head_beta r = false) ∧
    head_beta_reduce_fuel 1 (.app (.lam (.sort .zero) (.bvar 0)) cA) = some cA := by
  constructor
  · intro fuel
    induction fuel with
    | zero =>
      intro t r h
      unfold head_beta_reduce_fuel at h
      split at h
      · next hred =>
        injection h with h
        rw [← h]
        exact hred
      · exact absurd h (by simp)
    | succ fuel ih =>
      intro t r h
      unfold head_beta_reduce_fuel at h
      split at h
      · next hred =>
        injection h with h
        rw [← h]
        exact hred
      · exact ih (head_beta_step t) r h
  · rfl

theorem head_beta_fuel_sound_witness :
    head_beta_reduce_fuel 1 (.app (.lam (.sort .zero) (.bvar 0)) cA) = some cA ∧
    is_head_beta cA = false :=
  ⟨head_beta_fuel_sound.2, head_beta_fuel_sound.1 1 _ cA head_beta_fuel_sound.2⟩

/-- Whether a term mentions a named universe parameter (the cached
`has_param_univ` flag of the expression collaborator). -/
def has_param_univ : Expr → Bool
  | .bvar _ => false
  | .app f a => has_param_univ f || has_param_univ a
  | .lam t b => has_param_univ t || has_param_univ b
  | .const _ ls => ls.any Lvl.has_param
  | .sort l => l.has_param

/-- Whether the root is a constant reference. -/
def is_constant : Expr → Bool
  | .const _ _ => true
  | _ => false

/-- Whether the root is a sort. -/
def is_sort : Expr → Bool
  | .sort _ => true
  | _ => false

/-- The level list attached to a constant. -/
def const_levels : Expr → List Lvl
  | .const _ ls => ls
  | _ => []

/-- The level attached to a sort. -/
def sort_level : Expr → Lvl
  | .sort l => l
  | _ => .zero

/-- Replace the level list of a constant (`update_constant`). -/
def update_constant : Expr → List Lvl → Expr
  | .const n _, ls => .const n ls
  | e, _ => e

/-- Replace the level of a sort (`update_sort`). -/
def update_sort : Expr → Lvl → Expr
  | .sort _, l => .sort l
  | e, _ => e

/-- The visitor of `instantiate_lparams` (lambda_lifting.h lines 139-149):
skip subtrees without parametric universes, rewrite the level data of
constants and sorts (the C++ `map_reuse` only avoids reallocation and is
value-level `map`). -/
def lparams_fn (lps : List String) (ls : List Lvl) (e : Expr) (_ : Nat) : Option Expr :=
  if has_param_univ e = false then some e
  else if is_constant e then
    some (update_constant e ((const_levels e).map (Lvl.instantiate lps ls)))
  else if is_sort e then some (update_sort e ((sort_level e).instantiate lps ls))
  else none

/-- Universe-parameter substitution `instantiate_lparams(e, lps, ls)`
(lambda_lifting.h lines 136-150). -/
def instantiate_lparams (e : Expr) (lps : List String) (ls : List Lvl) : Expr :=
  if has_param_univ e = false then e
  else replace (lparams_fn lps ls) e 0

/-- A declaration (`constant_info`): the `id` field is the stable
per-instance identity token standing for C++ object identity — `is_eqp`
holds of two values exactly when they are the same object, which (with
distinct tokens for distinct objects) is structural equality including the
token. -/
structure ConstantInfo where
  id : Nat
  name : String
  lparams : List String
  type : Expr
  value : Expr
deriving DecidableEq

/-- Object identity test (`is_eqp`). -/
def is_eqp (a b : ConstantInfo) : Bool := decide (a = b)

/-- Modelled from the spec: the external name-hash collaborator ("structural
equality and a stable name-hash"). -/
def name_hash (s : String) : Nat := s.hash.toNat

/-- The memo table `instantiate_univ_cache` (lambda_lifting.h lines
152-192): a direct-mapped, fixed-capacity table; an empty vector stands for
the not-yet-allocated state. -/
structure instantiate_univ_cache where
  capacity : Nat
  cache : List (Option (ConstantInfo × List Lvl × Expr))

/-- The constructor: zero capacity is bumped to 1; the table starts empty. -/
def mk_univ_cache (capacity : Nat) : instantiate_univ_cache :=
  { capacity := if capacity = 0 then 1 else capacity, cache := [] }

/-- Lookup `is_cached(d, ls)` (lambda_lifting.h lines 162-178): requires
exact object identity on the declaration and structural equality on the
level list; anything else is a miss. -/
def instantiate_univ_cache.is_cached (c : instantiate_univ_cache)
    (d : ConstantInfo) (ls : List Lvl) : Option Expr :=
  if c.cache.isEmpty then none
  else
    match c.cache.getD (name_hash d.name % c.capacity) none with
    | some (info_c, ls_c, r_c) =>
      if is_eqp info_c d = false then none
      else if ls = ls_c then some r_c
      else none
    | none => none

/-- Store `save(d, ls, r)` (lambda_lifting.h lines 180-186): allocate the
table on first use, then overwrite the declaration's bucket. -/
def instantiate_univ_cache.save (c : instantiate_univ_cache)
    (d : ConstantInfo) (ls : List Lvl) (r : Expr) : instantiate_univ_cache :=
  let cache0 := if c.cache.isEmpty then List.replicate c.capacity none else c.cache
  { c with cache := cache0.set (name_hash d.name % cache0.length) (some (d, ls, r)) }

/-- Empty both caches (`clear`). -/
def instantiate_univ_cache.clear (c : instantiate_univ_cache) : instantiate_univ_cache :=
  { c with cache := [] }

/-- Memoized type specialization `instantiate_type_lparams(info, ls)`
(lambda_lifting.h lines 197-207), with its thread-local cache passed and
returned explicitly. -/
def instantiate_type_lparams (c : instantiate_univ_cache)
    (info : ConstantInfo) (ls : List Lvl) : Expr × instantiate_univ_cache :=
  if ls = [] ∨ has_param_univ info.type = false then (info.type, c)
  else
    match c.is_cached info ls with
    | some r => (r, c)
    | none =>
      let r := instantiate_lparams info.type info.lparams ls
      (r, c.save info ls r)

/-- Memoized value specialization `instantiate_value_lparams(info, ls)`
(lambda_lifting.h lines 209-219). -/
def instantiate_value_lparams (c : instantiate_univ_cache)
    (info : ConstantInfo) (ls : List Lvl) : Expr × instantiate_univ_cache :=
  if ls = [] ∨ has_param_univ info.value = false then (info.value, c)
  else
    match c.is_cached info ls with
    | some r => (r, c)
    | none =>
      let r := instantiate_lparams info.value info.lparams ls
      (r, c.save info ls r)

/-- Level substitution with an empty concrete list changes nothing. -/
theorem lvl_instantiate_nil (lps : List String) (l : Lvl) :
    l.instantiate lps [] = l := by
  induction l with
  | zero => rfl
  | succ l ih =>
    show Lvl.succ (l.instantiate lps []) = .succ l
    rw [ih]
  | lmax a b iha ihb =>
    show Lvl.lmax (a.instantiate lps []) (b.instantiate lps []) = .lmax a b
    rw [iha, ihb]
  | param n =>
    show (match (lps.zip ([] : List Lvl)).find? (fun p => p.1 == n) with
          | some p => p.2
          | none => Lvl.param n) = .param n
    rw [List.zip_nil_right]
    rfl

/-- Mapping the empty-list level substitution over a level list changes
nothing. -/
theorem map_lvl_instantiate_nil (lps : List String) (lvls : List Lvl) :
    lvls.map (Lvl.instantiate lps []) = lvls := by
  induction lvls with
  | nil => rfl
  | cons x xs ihx =>
    show (x.instantiate lps []) :: xs.map (Lvl.instantiate lps []) = x :: xs
    rw [lvl_instantiate_nil lps x, ihx]

/-- The visitor of `instantiate_lparams` leaves every node unchanged when
the concrete level list is empty. -/
theorem replace_lparams_nil (lps : List String) :
    ∀ (e : Expr) (d : Nat), replace (lparams_fn lps []) e d = e := by
  intro e
  induction e with
  | bvar i =>
    intro d
    exact replace_some (show lparams_fn lps [] (.bvar i) d = some (.bvar i) from rfl)
  | app f a ihf iha =>
    intro d
    by_cases hp : has_param_univ (.app f a) = false
    · exact replace_some (show lparams_fn lps [] (.app f a) d = some (.app f a) from by
        unfold lparams_fn; rw [if_pos hp])
    · rw [replace_none_app (show lparams_fn lps [] (.app f a) d = none from by
        unfold lparams_fn; rw [if_neg hp]; rfl)]
      rw [ihf d, iha d]
  | lam t b iht ihb =>
    intro d
    by_cases hp : has_param_univ (.lam t b) = false
    · exact replace_some (show lparams_fn lps [] (.lam t b) d = some (.lam t b) from by
        unfold lparams_fn; rw [if_pos hp])
    · rw [replace_none_lam (show lparams_fn lps [] (.lam t b) d = none from by
        unfold lparams_fn; rw [if_neg hp]; rfl)]
      rw [iht d, ihb (d + 1)]
  | const nm lvls =>
    intro d
    by_cases hp : has_param_univ (.const nm lvls) = false
    · exact replace_some (show lparams_fn lps [] (.const nm lvls) d = some (.const nm lvls)
        from by unfold lparams_fn; rw [if_pos hp])
    · refine replace_some (show lparams_fn lps [] (.const nm lvls) d = some (.const nm lvls)
        from by
          unfold lparams_fn
          rw [if_neg hp]
          rw [show is_constant (.const nm lvls) = true from rfl]
          rw [if_pos rfl]
          show some (Expr.const nm (lvls.map (Lvl.instantiate lps []))) = _
          rw [map_lvl_instantiate_nil lps lvls])
  | sort l =>
    intro d
    by_cases hp : has_param_univ (.sort l) = false
    · exact replace_some (show lparams_fn lps [] (.sort l) d = some (.sort l) from by
        unfold lparams_fn; rw [if_pos hp])
    · refine replace_some (show lparams_fn lps [] (.sort l) d = some (.sort l) from by
        unfold lparams_fn
        rw [if_neg hp]
        rw [show is_constant (.sort l) = false from rfl]
        simp only [Bool.false_eq_true, if_false]
        rw [show is_sort (.sort l) = true from rfl]
        rw [if_pos rfl]
        show some (Expr.sort (l.instantiate lps [])) = _
        rw [lvl_instantiate_nil lps l])

/-- Substituting an empty concrete level list changes nothing. -/
theorem instantiate_lparams_nil (e : Expr) (lps : List String) :
    instantiate_lparams e lps [] = e := by
  unfold instantiate_lparams
  split
  · rfl
  · exact replace_lparams_nil lps e 0

/-- A hit in the cache comes from a stored entry for the very same
declaration object and level list. -/
theorem is_cached_mem (c : instantiate_univ_cache) (d : ConstantInfo) (ls : List Lvl)
    (r : Expr) (h : c.is_cached d ls = some r) : some (d, ls, r) ∈ c.cache := by
  unfold instantiate_univ_cache.is_cached at h
  split at h
  · exact absurd h (by simp)
  · split at h
    · next info_c ls_c r_c hget =>
      split at h
      · exact absurd h (by simp)
      · split at h
        · next hls =>
          next heqp =>
            injection h with h
            have hinfo : info_c = d := by
              unfold is_eqp at heqp
              simpa using heqp
            rw [hinfo, ← hls, h] at hget
            rcases hgel : c.cache[name_hash d.name % c.capacity]? with _ | y
            · rw [List.getD_eq_getElem?_getD, hgel] at hget
              exact absurd hget (by simp)
            · rw [List.getD_eq_getElem?_getD, hgel] at hget
              simp only [Option.getD_some] at hget
              rw [← hget]
              exact List.getElem?_mem hgel
        · exact absurd h (by simp)
    · exact absurd h (by simp)

/-- Validity of a cache state: every stored entry records exactly the
uncached computation for its declaration and level list.  This holds of
every state the program can build (empty, cleared, or filled by `save`). -/
def CacheValid (c : instantiate_univ_cache) : Prop :=
  ∀ (info : ConstantInfo) (ls : List Lvl) (r : Expr),
    some (info, ls, r) ∈ c.cache → r = instantiate_lparams info.type info.lparams ls

/-- C8: cache transparency of `instantiate_type_lparams`.  Over any valid
cache state — regardless of which declarations populated it, including ones
whose names hash to the same bucket or equal-named but non-identical
(different identity) declarations — the result is structurally equal to
`instantiate_lparams(d.type, d.lparams, ls)`, and the returned cache state
is valid again. -/
theorem instantiate_type_lparams_transparent (c : instantiate_univ_cache)
    (info : ConstantInfo) (ls : List Lvl) (hv : CacheValid c) :
    (instantiate_type_lparams c info ls).1 = instantiate_lparams info.type info.lparams ls ∧
    CacheValid (instantiate_type_lparams c info ls).2 := by
  unfold instantiate_type_lparams
  split
  · next h =>
    rcases h with h | h
    · rw [h]
      exact ⟨(instantiate_lparams_nil info.type info.lparams).symm, hv⟩
    · refine ⟨?_, hv⟩
      show info.type = instantiate_lparams info.type info.lparams ls
      unfold instantiate_lparams
      rw [if_pos h]
  · cases hic : c.is_cached info ls with
    | some r =>
      exact ⟨hv info ls r (is_cached_mem c info ls r hic), hv⟩
    | none =>
      refine ⟨rfl, ?_⟩
      intro info1 ls1 r1 hmem
      show r1 = instantiate_lparams info1.type info1.lparams ls1
      unfold instantiate_univ_cache.save at hmem
      simp only at hmem
      rcases List.mem_or_eq_of_mem_set hmem with hmem | hmem
      · split at hmem
        · exact absurd (List.eq_of_mem_replicate hmem) (by simp)
        · exact hv info1 ls1 r1 hmem
      · injection hmem with hmem
        injection hmem with h1 hmem
        injection hmem with h2 h3
        rw [h1, h2, h3]
  -- end

/-- A sample declaration whose type mentions its universe parameter. -/
def info0 : ConstantInfo :=
  { id := 0, name := "c", lparams := ["u"], type := .sort (.param "u"), value := .sort .zero }

theorem instantiate_type_lparams_transparent_witness :
    (instantiate_type_lparams (mk_univ_cache 8) info0 [Lvl.zero]).1
      = instantiate_lparams info0.type info0.lparams [Lvl.zero] :=
  (instantiate_type_lparams_transparent (mk_univ_cache 8) info0 [Lvl.zero]
    (by intro info ls r h; exact absurd h (by simp [mk_univ_cache]))).1

end KernelSpec
